import Mathlib

/-!
Verification of the tmlanguage.c TextMate-style grammar engine.

This file gives a shallow embedding of src/tmlanguage/tmlanguage.c.
The Oniguruma regex library is external to the repository; every call into it
(onig_search, onig_regset_search, onig_new, onig_match,
onig_name_to_group_numbers) is modelled by an abstract oracle (structure Onig
below).  Everything that the C file itself computes is translated directly.

Conventions:
  - bytes are Nat (value of an unsigned char), byte buffers are List Nat;
  - size_t values are Nat (overflow guards of the source are kept explicitly
    where the source checks them);
  - C int values that can be negative (region offsets, comparator results,
    capture indices) are Int;
  - OnigRegion is a structure of total functions (num_regs, beg, end); the
    engine only reads entries below num_regs;
  - a compiled regex (OnigRegex) is identified by a Nat handle; the oracle
    interprets handles;
  - fallible recursion (the render loop, whose termination depends on the
    oracle's answers) takes explicit fuel and returns none when the fuel runs
    out; a separate theorem shows that for well-behaved oracles enough fuel
    always exists;
  - memory management (malloc/free/realloc bookkeeping, capacity doubling in
    addScope) is not modelled, except where it changes observable results
    (the size guards of backreferencingSearch, kept verbatim).
-/

set_option maxRecDepth 16384

/-- SIZE_MAX of the 64-bit C implementation. -/
def SIZE_MAX : Nat := 2 ^ 64 - 1

/-- INT_MAX of the C implementation. -/
def INT_MAX : Nat := 2147483647

/-- Scope names are C ints; 0 means "no scope" (tmlanguage.h: scopeName). -/
abbrev ScopeName := Int

/-- Model of OnigRegion: num_regs and the beg/end arrays (C ints, -1 when a
group did not participate).  Total functions stand for the arrays; the engine
reads only indices below numRegs. -/
structure Region where
  numRegs : Nat
  beg : Nat → Int
  rend : Nat → Int

/-- Arguments of an onig_search / onig_regset_search call: the subject is
bytes[str..stop), the search window is [start..range), and the only option the
engine ever passes is ONIG_OPTION_NOT_BEGIN_POSITION. -/
structure SearchArgs where
  bytes : List Nat
  str : Nat
  stop : Nat
  start : Nat
  range : Nat
  notBeginPosition : Bool

/-- The regex-engine oracle.  Handles (Nat) name compiled regexes; regsets are
keyed by the state id that owns them (a state's regset holds its rule patterns
in add order, searched with ONIG_REGSET_POSITION_LEAD). -/
structure Onig where
  /-- onig_search on compiled regex: some region on success, none when the
  result is negative.  On success beg 0 is the match position. -/
  search : Nat → SearchArgs → Option Region
  /-- onig_regset_search on the regset of a state id: (winning index, match
  position, winning regex's region). -/
  regsetSearch : Nat → SearchArgs → Option (Nat × Int × Region)
  /-- onig_new: compile source bytes to (regex handle, onig_number_of_captures). -/
  onigNew : List Nat → Option (Nat × Nat)
  /-- onig_name_to_group_numbers: none when the lookup fails (n < 0). -/
  nameToGroupNumbers : Nat → List Nat → Option (List Nat)
  /-- onig_match (regex, bytes, end offset, at offset): true iff result >= 0. -/
  onigMatch : Nat → List Nat → Nat → Nat → Bool

/-- An oracle all of whose calls fail; used to instantiate scenarios where the
oracle is irrelevant. -/
def onigNone : Onig :=
  { search := fun _ _ => none
    regsetSearch := fun _ _ => none
    onigNew := fun _ => none
    nameToGroupNumbers := fun _ _ => none
    onigMatch := fun _ _ _ _ => false }

/-- struct pattern of tmlanguage.c.  re is the compiled regex handle; text/len
are the retained source of a backreferencing end/while pattern (C: p->text is
NULL when not retained, modelled by Option). -/
structure Pattern where
  re : Nat
  innerScope : ScopeName
  outerScope : ScopeName
  captures : Nat
  captureScopes : List ScopeName
  captureStates : List (Option Nat)
  backreferencingPattern : Bool
  text : Option (List Nat)
  len : Nat
deriving DecidableEq

/-- createPattern: compile the regex; on success the pattern has
onig_number_of_captures + 1 capture slots, all scopes/states cleared (calloc).
On compile failure C returns 0 (and optionally an error string): none here. -/
def createPattern (O : Onig) (regex : List Nat) : Option Pattern :=
  match O.onigNew regex with
  | none => none
  | some (re, nc) =>
    some { re := re
           innerScope := 0
           outerScope := 0
           captures := nc + 1
           captureScopes := List.replicate (nc + 1) 0
           captureStates := List.replicate (nc + 1) none
           backreferencingPattern := false
           text := none
           len := 0 }

/-- The scan-and-strip loop of createBackreferencingPattern: walk i over the
buffer; whenever text[i] is a backslash and text[i+1] an ASCII digit, set the
flag and overwrite text[i] with the character 0 (byte 48).  Returns the final
buffer and flag. -/
def cbpAux : Nat → List Nat → Nat → Bool → List Nat × Bool
  | 0, t, _, flag => (t, flag)
  | n + 1, t, i, flag =>
    if i + 1 < t.length then
      if t.getD i 0 = 92 ∧ 48 ≤ t.getD (i + 1) 0 ∧ t.getD (i + 1) 0 ≤ 57 then
        cbpAux n (t.set i 48) (i + 1) true
      else cbpAux n t (i + 1) flag
    else (t, flag)

/-- The loop, entered at index i.  The C loop runs while i + 1 < len; the
explicit count text.length - i bounds its iterations (each one increments i
and preserves the length), and when the count is 0 the loop condition is
already false, so the count-exhausted base case coincides with the loop
exit. -/
def cbpGo (text : List Nat) (i : Nat) (flag : Bool) : List Nat × Bool :=
  cbpAux (text.length - i) text i flag

/-- createBackreferencingPattern: copy the source, strip prospective
backreferences so the regex compiles (cbpGo), compile the stripped copy; when
a backslash-digit pair was found, mark the pattern and retain the original
source bytes (C: memcpy(p->text, regex, len) puts the backslashes back). -/
def createBackreferencingPattern (O : Onig) (regex : List Nat) : Option Pattern :=
  let tf := cbpGo regex 0 false
  match createPattern O tf.1 with
  | none => none
  | some p =>
    if !tf.2 then some p
    else some { p with backreferencingPattern := true
                       text := some regex
                       len := regex.length }

/-- setInnerScope of tmlanguage.c. -/
def setInnerScope (p : Pattern) (name : ScopeName) : Pattern :=
  { p with innerScope := name }

/-- setOuterScope of tmlanguage.c. -/
def setOuterScope (p : Pattern) (name : ScopeName) : Pattern :=
  { p with outerScope := name }

/-- The loop body of captureNameToInt: result is a C uint32_t, so both the
multiplication by 10 and the digit addition wrap modulo 2^32; a non-digit byte
aborts with -1, and a final value above INT_MAX also yields -1. -/
def captureNameToIntGo (name : List Nat) (result : Nat) : Int :=
  match name with
  | [] => if result > INT_MAX then -1 else (result : Int)
  | c :: rest =>
    let result := result * 10 % 2 ^ 32
    if c < 48 ∨ c > 57 then -1
    else captureNameToIntGo rest ((result + (c - 48)) % 2 ^ 32)

/-- captureNameToInt of tmlanguage.c. -/
def captureNameToInt (name : List Nat) : Int :=
  captureNameToIntGo name 0

/-- setCaptureScope: a digit name in range sets the numbered slot; otherwise
the name is resolved through the regex engine's named-group lookup and every
group of that name is set; a failed lookup leaves the pattern unchanged. -/
def setCaptureScope (O : Onig) (p : Pattern) (name : List Nat) (scope : ScopeName) :
    Pattern :=
  let capture := captureNameToInt name
  if 0 ≤ capture ∧ capture < (p.captures : Int) then
    { p with captureScopes := p.captureScopes.set capture.toNat scope }
  else
    match O.nameToGroupNumbers p.re name with
    | none => p
    | some groups =>
      { p with captureScopes := groups.foldl (fun cs g => cs.set g scope) p.captureScopes }

/-- setCaptureState: same dispatch as setCaptureScope, writing the sub-state
slot instead. -/
def setCaptureState (O : Onig) (p : Pattern) (name : List Nat) (s : Nat) : Pattern :=
  let capture := captureNameToInt name
  if 0 ≤ capture ∧ capture < (p.captures : Int) then
    { p with captureStates := p.captureStates.set capture.toNat (some s) }
  else
    match O.nameToGroupNumbers p.re name with
    | none => p
    | some groups =>
      { p with captureStates := groups.foldl (fun cs g => cs.set g (some s)) p.captureStates }

/-- Rule tag of patternInState (tmlanguage.c: enum { MATCH, BEGIN }). -/
inductive RuleType
  | MATCH
  | BEGIN
deriving DecidableEq

/-- patternInState: a rule of a state; toState is the target state id of a
BEGIN rule (C: the to field; never read for MATCH rules, where C leaves it
zeroed; renamed because to is reserved in Lean). -/
structure PatternInState where
  type : RuleType
  p : Pattern
  toState : Nat
deriving DecidableEq

/-- struct state: rules in add order (the state's regset holds their regexes
in the same order), the optional end/while anchors, and applyEndPatternLast. -/
structure StateData where
  whilePattern : Option Pattern
  endPattern : Option Pattern
  applyEndPatternLast : Bool
  patterns : List PatternInState
deriving DecidableEq

/-- A grammar: the states, as a total map from state id.  C states are heap
pointers wired up by the caller; ids model those pointers. -/
structure Grammar where
  states : Nat → StateData

/-- Scope event kind (tmlanguage.h: enum scopeType). -/
inductive ScopeTy
  | SCOPE_BEGIN
  | SCOPE_END
deriving DecidableEq

/-- struct scope of tmlanguage.h: one begin/end event.  offset is clamped to
the line; startOffset/endOffset keep the unclamped range (used only for
sorting); seq breaks ties. -/
structure Scope where
  ty : ScopeTy
  name : ScopeName
  offset : Nat
  startOffset : Nat
  endOffset : Nat
  seq : Nat
deriving DecidableEq

/-- struct line of tmlanguage.h (the capacity field is allocation bookkeeping
and is not modelled). -/
structure Line where
  scopes : List Scope
  lineBegin : Nat
  lineEnd : Nat
  endIncludingNewline : Nat
deriving DecidableEq

/-- addScope: append one event to the line's vector (the doubling of the
capacity and its overflow guard are allocation bookkeeping). -/
def addScope (line : Line) (s : Scope) : Line :=
  { line with scopes := line.scopes ++ [s] }

/-- addScopeRange of tmlanguage.c: clamp [b, e) to the line, drop the range
when the name is 0 or the clamped range is empty, otherwise append a
SCOPE_BEGIN and a SCOPE_END event carrying the unclamped range and seq. -/
def addScopeRange (line : Line) (name : ScopeName) (seq : Nat) (b e : Nat) : Line :=
  let clampedBegin := if b < line.lineBegin then line.lineBegin else b
  let clampedEnd := if e > line.lineEnd then line.lineEnd else e
  if name = 0 ∨ clampedBegin ≥ clampedEnd then line
  else
    addScope
      (addScope line
        { ty := ScopeTy.SCOPE_BEGIN, name := name, offset := clampedBegin,
          startOffset := b, endOffset := e, seq := seq })
      { ty := ScopeTy.SCOPE_END, name := name, offset := clampedEnd,
        startOffset := b, endOffset := e, seq := seq }

/-- compareScopes of tmlanguage.c, the qsort comparator on scope events. -/
def compareScopes (a b : Scope) : Int :=
  if a.offset < b.offset then -1
  else if a.offset > b.offset then 1
  else if a.ty = ScopeTy.SCOPE_END ∧ b.ty = ScopeTy.SCOPE_BEGIN then -1
  else if a.ty = ScopeTy.SCOPE_BEGIN ∧ b.ty = ScopeTy.SCOPE_END then 1
  else
    let dir : Int := if a.ty = ScopeTy.SCOPE_BEGIN then 1 else -1
    if a.startOffset < b.startOffset then -dir
    else if a.startOffset > b.startOffset then dir
    else if a.endOffset < b.endOffset then dir
    else if a.endOffset > b.endOffset then -dir
    else if a.seq < b.seq then -dir
    else if a.seq > b.seq then dir
    else 0

/-- Boolean order used to model qsort with compareScopes: a before b when the
comparator is nonpositive. -/
def scopeLe (a b : Scope) : Bool :=
  compareScopes a b ≤ 0

/-- The same order as a decidable relation, for the sort. -/
def scopeLeRel (a b : Scope) : Prop :=
  scopeLe a b = true

instance : DecidableRel scopeLeRel :=
  fun a b => instDecidableEqBool (scopeLe a b) true

/-- struct activeState: one frame of the renderer's stack.  s/p are the state
and begin pattern (ids/data; none models the null pointers of the permanent
bottom frame and of transient capture frames), beginRegion the copied begin
match region, endRegex/whileRegex the per-frame caches of lazily compiled
backreference expansions. -/
structure ActiveState where
  s : Option Nat
  p : Option Pattern
  beginRegion : Option Region
  endRegex : Option Nat
  whileRegex : Option Nat
  beginOffset : Nat
  outerBegin : Nat
  outerSeq : Nat
  innerBegin : Nat
  innerSeq : Nat

/-- A zeroed activeState (C: calloc / designated initializers zero the
remaining fields). -/
def ActiveState.empty : ActiveState :=
  { s := none, p := none, beginRegion := none, endRegex := none,
    whileRegex := none, beginOffset := 0, outerBegin := 0, outerSeq := 0,
    innerBegin := 0, innerSeq := 0 }

/-- struct renderer: input bytes, cursor, stack (C: a 256-entry array plus
stackDepth; here a list whose length is stackDepth), and the seq counter. -/
structure Renderer where
  bytes : List Nat
  offset : Nat
  stack : List ActiveState
  seq : Nat

/-- Stack capacity: sizeof(r->stack)/sizeof(r->stack[0]) = 256. -/
def stackCapacity : Nat := 256

/-- createRenderer: cursor at 0, one permanent bottom frame carrying the start
state, everything else zeroed. -/
def createRenderer (bytes : List Nat) (startState : Nat) : Renderer :=
  { bytes := bytes
    offset := 0
    stack := [{ ActiveState.empty with s := some startState }]
    seq := 0 }

/-- popStack(r, depth): pop frames until the depth is at most depth (the freed
per-frame regexes and regions are memory management). -/
def popStack (r : Renderer) (depth : Nat) : Renderer :=
  { r with stack := r.stack.take depth }

/-- advanceToNextLine of tmlanguage.c: starting at offset, walk to the first
line terminator; consume it (LF, CR, or CRLF); return the offset of the
terminator (the line end, excluding the terminator) and the new cursor. -/
def advanceGo (bytes : List Nat) (len : Nat) : Nat → Nat → Nat × Nat
  | 0, offset => (offset, offset)
  | n + 1, offset =>
    if offset ≥ len then (offset, offset)
    else if bytes.getD offset 0 = 10 then (offset, offset + 1)
    else if bytes.getD offset 0 = 13 then
      if offset + 1 < len ∧ bytes.getD (offset + 1) 0 = 10 then (offset, offset + 2)
      else (offset, offset + 1)
    else advanceGo bytes len n (offset + 1)

/-- The loop, with its iteration count len - offset made explicit: each
iteration increments offset, and when the count is 0 then offset >= len, which
is exactly the loop's first exit, so the base case coincides with it. -/
def advanceToNextLine (bytes : List Nat) (len : Nat) (offset : Nat) : Nat × Nat :=
  advanceGo bytes len (len - offset) offset

/-- firstLineMatch of tmlanguage.c: advance past the first line (the returned
before-newline value is discarded; the consumed offset, which includes the
terminator, bounds the subject) and call onig_match anchored at position 0. -/
def firstLineMatch (O : Onig) (bytes : List Nat) (len : Nat) (p : Pattern) : Bool :=
  let offset := (advanceToNextLine bytes len 0).2
  O.onigMatch p.re bytes offset 0

/-- Octal escape of one captured byte b (backreferencingSearch): backslash,
then the three octal digits of b, as in the source's masks 0700, 0070, 0007. -/
def octalEscape (b : Nat) : List Nat :=
  [92, 48 + ((b &&& 448) >>> 6), 48 + ((b &&& 56) >>> 3), 48 + (b &&& 7)]

/-- The buffer-growing loop of backreferencingSearch: while reserved > size,
fail when size > SIZE_MAX/2, else double size.  The fuel 66 is an upper bound
on the doublings: from any size at least 1 the guard fires within 64 steps, so
the fuel never runs out on the source's executions (size starts at 2*len with
len at least 2 when a backreference pair exists). -/
def growSize (fuel : Nat) (size reserved : Nat) : Option Nat :=
  match fuel with
  | 0 => none
  | fuel + 1 =>
    if reserved > size then
      if size > SIZE_MAX / 2 then none
      else growSize fuel (size * 2) reserved
    else some size

/-- The expansion loop of backreferencingSearch: walk the retained source of
length len; for a backslash-digit pair look up begin capture d, failing when d
is out of regs, absent (beg < 0) or inconsistent (end < beg); grow the buffer
for 4 output bytes per captured byte plus the rest of the source; append the
octal escapes of the captured input bytes; any other byte passes through.
The first argument counts the remaining loop iterations (at most len - i,
each iteration advancing i by 1 or 2); when it is 0 then i is already at or
past len, which is the loop exit. -/
def expandGo (t : List Nat) (len : Nat) (reg : Region) (beginOffset : Nat)
    (bytes : List Nat) : Nat → Nat → List Nat → Nat → Option (List Nat)
  | 0, _, acc, _ => some acc
  | n + 1, i, acc, size =>
    if i < len then
      if i + 1 < len ∧ t.getD i 0 = 92 ∧ 48 ≤ t.getD (i + 1) 0 ∧ t.getD (i + 1) 0 ≤ 57 then
        let which := t.getD (i + 1) 0 - 48
        if which ≥ reg.numRegs ∨ reg.beg which < 0 ∨ reg.rend which < reg.beg which then
          none
        else
          let start := beginOffset + (reg.beg which).toNat
          let stop := beginOffset + (reg.rend which).toNat
          let reserved := acc.length + 4 * (stop - start) + len - (i + 1)
          match growSize 66 size reserved with
          | none => none
          | some size' =>
            expandGo t len reg beginOffset bytes n (i + 2)
              (acc ++ (List.range (stop - start)).flatMap
                (fun j => octalEscape (bytes.getD (start + j) 0))) size'
      else expandGo t len reg beginOffset bytes n (i + 1) (acc ++ [t.getD i 0]) size
    else some acc

/-- backreferencingSearch of tmlanguage.c: plain patterns search directly; a
backreferencing pattern searches its cached per-frame expansion, compiling it
first when the cache is empty (failing, result -1, when there is no begin
region, the length guard trips, the expansion fails, or the compile fails).
Returns the updated cache and the search result. -/
def backreferencingSearch (O : Onig) (r : Renderer) (a : ActiveState)
    (re : Option Nat) (p : Pattern) (args : SearchArgs) :
    Option Nat × Option Region :=
  if !p.backreferencingPattern then (re, O.search p.re args)
  else match re with
  | some cre => (some cre, O.search cre args)
  | none =>
    match a.beginRegion with
    | none => (none, none)
    | some breg =>
      if p.len > SIZE_MAX / 2 then (none, none)
      else
        match expandGo (p.text.getD []) p.len breg a.beginOffset r.bytes p.len 0 [] (p.len * 2) with
        | none => (none, none)
        | some replaced =>
          match O.onigNew replaced with
          | none => (none, none)
          | some (cre, _) => (some cre, O.search cre args)

/-- Write one stack slot in place (C: assignment through a pointer into the
stack array). -/
def stackWrite (r : Renderer) (i : Nat) (a : ActiveState) : Renderer :=
  { r with stack := r.stack.set i a }

/-- Outcome of one iteration of the dispatch loop: halt leaves the loop (a C
break or the loop condition failing), cont re-enters it with the updated
cursor, maxOffset and no-progress counter. -/
inductive StepOut
  | halt (r : Renderer) (line : Line)
  | cont (r : Renderer) (line : Line) (offset maxOffset mwp : Nat)

/-- Common tail of the regular-rule branch: advance the cursor to the match
end; reset the no-progress counter on progress past maxOffset, else count one
more non-advancing match. -/
def progressOut (line : Line) (maxOffset mwp : Nat) (r : Renderer) (region : Region) :
    StepOut :=
  let e0 := line.lineBegin + (region.rend 0).toNat
  if e0 > maxOffset then StepOut.cont r line e0 e0 0
  else StepOut.cont r line e0 maxOffset (mwp + 1)

/-- The tie-breaking condition of the dispatch loop, verbatim from the source
(renderLine): the regular rule wins when the end search failed (endres < 0),
or the regset match starts strictly before the end match, or
applyEndPatternLast is set and both start at the same offset. -/
def regularWinsB (applyLast : Bool) (matchpos : Int) (endres : Option Region) : Bool :=
  match endres with
  | none => true
  | some ereg =>
    decide (matchpos < ereg.beg 0) || (applyLast && decide (matchpos = ereg.beg 0))

/-- The scope events still open when the dispatch loop is done: for every
frame from stackBase up, emit its outer and inner ranges extended to e
(tmlanguage.c: loop after the dispatch loop in renderLine). -/
def openGo (r : Renderer) (e : Nat) : Nat → Nat → Line → Line
  | 0, _, line => line
  | n + 1, i, line =>
    if i < r.stack.length then
      let a := r.stack.getD i ActiveState.empty
      match a.p with
      | none => openGo r e n (i + 1) line
      | some ap =>
        let line := addScopeRange line ap.outerScope a.outerSeq a.outerBegin e
        let line := addScopeRange line ap.innerScope a.innerSeq a.innerBegin e
        openGo r e n (i + 1) line
    else line

/-- The loop, entered at index i, with its count r.stack.length - i explicit
(the stack is not modified by the loop); count 0 means i is past the stack,
the loop exit. -/
def openScopes (r : Renderer) (e : Nat) (i : Nat) (line : Line) : Line :=
  openGo r e (r.stack.length - i) i line

variable (O : Onig) (G : Grammar)

mutual

/-- renderLine of tmlanguage.c over bytes [b, e) of the given line: nothing to
do when the range is empty; otherwise run the while-anchor phase, then the
dispatch loop (fresh no-progress counter, maxOffset starting at b, before the
while phase moved the cursor), then emit the still-open scopes.  none when the
fuel runs out. -/
def renderLine : Nat → Renderer → Line → Nat → Nat → Nat → Option (Renderer × Line)
  | 0, _, _, _, _, _ => none
  | fuel + 1, r, line, b, e, stackBase =>
    if b = e then some (r, line)
    else
      match phaseA fuel e stackBase r line b with
      | none => none
      | some (r, line, offset) =>
        match loopGo fuel stackBase e r line offset b 0 with
        | none => none
        | some (r, line) => some (r, openScopes r e stackBase line)
termination_by structural fuel => fuel

/-- Phase A of renderLine: for each frame with a while pattern, search it
(always with ONIG_OPTION_NOT_BEGIN_POSITION) through the frame's cache; on
failure pop that frame and everything above and stop; on success render its
captures, reset the frame's outerBegin/innerBegin to the match and advance the
cursor. -/
def phaseA : Nat → Nat → Nat → Renderer → Line → Nat → Option (Renderer × Line × Nat)
  | 0, _, _, _, _, _ => none
  | fuel + 1, e, i, r, line, offset =>
    if _h : i < r.stack.length then
      let a := r.stack.getD i ActiveState.empty
      match a.s with
      | none =>
        -- unreachable: every frame the phase visits carries a state; the C
        -- code dereferences the pointer unconditionally.
        phaseA fuel e (i + 1) r line offset
      | some sid =>
        match (G.states sid).whilePattern with
        | none => phaseA fuel e (i + 1) r line offset
        | some p =>
          let c := backreferencingSearch O r a a.whileRegex p
            { bytes := r.bytes, str := line.lineBegin, stop := line.endIncludingNewline,
              start := offset, range := e, notBeginPosition := true }
          let r := stackWrite r i { a with whileRegex := c.1 }
          match c.2 with
          | none => some (popStack r i, line, offset)
          | some reg =>
            match renderCaptures fuel r line p reg 0 with
            | none => none
            | some (r, line) =>
              let a' := r.stack.getD i ActiveState.empty
              let r := stackWrite r i
                { a' with outerBegin := line.lineBegin + (reg.beg 0).toNat,
                          innerBegin := line.lineBegin + (reg.rend 0).toNat }
              phaseA fuel e (i + 1) r line (line.lineBegin + (reg.rend 0).toNat)
    else some (r, line, offset)
termination_by structural fuel => fuel

/-- The dispatch loop of renderLine: while fewer than 32 consecutive
non-advancing matches, take one step; a halt outcome leaves the loop. -/
def loopGo : Nat → Nat → Nat → Renderer → Line → Nat → Nat → Nat → Option (Renderer × Line)
  | 0, _, _, _, _, _, _, _ => none
  | fuel + 1, stackBase, e, r, line, offset, maxOffset, mwp =>
    if mwp < 32 then
      match dispatchStep fuel stackBase e r line offset maxOffset mwp with
      | none => none
      | some (StepOut.halt r line) => some (r, line)
      | some (StepOut.cont r line offset maxOffset mwp) =>
        loopGo fuel stackBase e r line offset maxOffset mwp
    else some (r, line)
termination_by structural fuel => fuel

/-- One iteration of the dispatch loop: read the top frame; search the end
pattern (through the frame cache) and the state's regset over [offset, e);
the regular rule wins when the regset found a match and the end search failed,
or the match starts before the end match, or applyEndPatternLast is set and
they start together; otherwise a successful end search pops the frame; with
neither, halt. -/
def dispatchStep : Nat → Nat → Nat → Renderer → Line → Nat → Nat → Nat → Option StepOut
  | 0, _, _, _, _, _, _, _ => none
  | fuel + 1, stackBase, e, r, line, offset, maxOffset, mwp =>
    match r.stack.getLast? with
    | none =>
      -- unreachable: stackDepth is at least 1 for the renderer's lifetime.
      some (StepOut.halt r line)
    | some a =>
      match a.s with
      | none => some (StepOut.halt r line)
      | some sid =>
        let st := G.states sid
        let options := decide (offset > a.innerBegin)
        let er :=
          match st.endPattern with
          | none => (a.endRegex, none)
          | some ep => backreferencingSearch O r a a.endRegex ep
              { bytes := r.bytes, str := line.lineBegin, stop := line.endIncludingNewline,
                start := offset, range := e, notBeginPosition := options }
        let r := stackWrite r (r.stack.length - 1) { a with endRegex := er.1 }
        let endres := er.2
        match O.regsetSearch sid
            { bytes := r.bytes, str := line.lineBegin, stop := line.endIncludingNewline,
              start := offset, range := e, notBeginPosition := options } with
        | some (res, matchpos, region) =>
          if regularWinsB st.applyEndPatternLast matchpos endres then
            match st.patterns[res]? with
            | none =>
              -- unreachable: the regset holds exactly the rule patterns, so a
              -- winning index is always in range; C would read out of bounds.
              some (StepOut.halt r line)
            | some pis => regularBranch fuel r line maxOffset mwp pis region
          else
            match endres with
            | some ereg => endBranch fuel stackBase r line a ereg maxOffset mwp
            | none => some (StepOut.halt r line)
        | none =>
          match endres with
          | some ereg => endBranch fuel stackBase r line a ereg maxOffset mwp
          | none => some (StepOut.halt r line)
termination_by structural fuel => fuel

/-- The regular-rule branch of the dispatch loop, applied to the winning rule
pis and its match region: render the rule's captures; a BEGIN rule then pushes
a frame carrying the target state, the rule pattern, a copy of the match
region when the target's end pattern is backreferencing, and fresh outer/inner
seqs (bumping the renderer's counter by 2) — unless the stack is full, in
which case the whole dispatch loop halts (C: break); finally the cursor moves
to the match end, with the no-progress accounting of progressOut. -/
def regularBranch : Nat → Renderer → Line → Nat → Nat → PatternInState → Region →
    Option StepOut
  | 0, _, _, _, _, _, _ => none
  | fuel + 1, r, line, maxOffset, mwp, pis, region =>
    match renderCaptures fuel r line pis.p region 0 with
    | none => none
    | some (r, line) =>
      if pis.type = RuleType.BEGIN then
        if r.stack.length = stackCapacity then some (StepOut.halt r line)
        else
          let beginRegion :=
            match (G.states pis.toState).endPattern with
            | some ep => if ep.backreferencingPattern then some region else none
            | none => none
          let r := { r with
            stack := r.stack ++
              [{ s := some pis.toState, p := some pis.p,
                 beginRegion := beginRegion, endRegex := none,
                 whileRegex := none, beginOffset := line.lineBegin,
                 outerBegin := line.lineBegin + (region.beg 0).toNat,
                 outerSeq := r.seq,
                 innerBegin := line.lineBegin + (region.rend 0).toNat,
                 innerSeq := r.seq + 1 }],
            seq := r.seq + 2 }
          some (progressOut line maxOffset mwp r region)
      else some (progressOut line maxOffset mwp r region)
termination_by structural fuel => fuel

/-- The end-pattern branch of the dispatch loop: render the end match's
captures; on underflow (no frame above the call's stackBase) halt; otherwise
emit the frame's inner and outer ranges up to the end match, pop it, and
continue at the end match's end. -/
def endBranch : Nat → Nat → Renderer → Line → ActiveState → Region → Nat → Nat →
    Option StepOut
  | 0, _, _, _, _, _, _, _ => none
  | fuel + 1, stackBase, r, line, a, ereg, maxOffset, mwp =>
    match (match a.s with
           | none => none
           | some sid => (G.states sid).endPattern) with
    | none =>
      -- unreachable: this branch runs only when the end search succeeded,
      -- which requires an end pattern.
      some (StepOut.halt r line)
    | some ep =>
      match renderCaptures fuel r line ep ereg 0 with
      | none => none
      | some (r, line) =>
        if r.stack.length ≤ stackBase then some (StepOut.halt r line)
        else
          match a.p with
          | none =>
            -- unreachable: frames above the base always carry a begin
            -- pattern; the C code dereferences a.p here.
            some (StepOut.halt r line)
          | some ap =>
            let line := addScopeRange line ap.innerScope a.innerSeq a.innerBegin
              (line.lineBegin + (ereg.beg 0).toNat)
            let line := addScopeRange line ap.outerScope a.outerSeq a.outerBegin
              (line.lineBegin + (ereg.rend 0).toNat)
            let r := popStack r (r.stack.length - 1)
            some (StepOut.cont r line (line.lineBegin + (ereg.rend 0).toNat) maxOffset mwp)
termination_by structural fuel => fuel

/-- renderCaptures of tmlanguage.c, iterating group i of the match region:
skip absent groups; a capture scope emits one range with a fresh seq; else a
capture state pushes a transient frame (skipped with a warning when the stack
is full) and recursively renders the capture's byte range above it, then pops
back. -/
def renderCaptures : Nat → Renderer → Line → Pattern → Region → Nat →
    Option (Renderer × Line)
  | 0, _, _, _, _, _ => none
  | fuel + 1, r, line, p, region, i =>
    if i < region.numRegs then
      if region.beg i < 0 then renderCaptures fuel r line p region (i + 1)
      else if p.captureScopes.getD i 0 ≠ 0 then
        let line := addScopeRange line (p.captureScopes.getD i 0) r.seq
          (line.lineBegin + (region.beg i).toNat) (line.lineBegin + (region.rend i).toNat)
        renderCaptures fuel { r with seq := r.seq + 1 } line p region (i + 1)
      else
        match p.captureStates.getD i none with
        | none => renderCaptures fuel r line p region (i + 1)
        | some sid =>
          if r.stack.length = stackCapacity then
            renderCaptures fuel r line p region (i + 1)
          else
            let depth := r.stack.length
            let r := { r with stack := r.stack ++ [{ ActiveState.empty with s := some sid }] }
            match renderLine fuel r line (line.lineBegin + (region.beg i).toNat)
                (line.lineBegin + (region.rend i).toNat) r.stack.length with
            | none => none
            | some (r, line) => renderCaptures fuel (popStack r depth) line p region (i + 1)
    else some (r, line)
termination_by structural fuel => fuel

end

/-- renderNextLine of tmlanguage.c: false (inner none) at end of input; else
set the line to the next terminator-delimited range, advance the cursor,
render over [begin, endIncludingNewline) above the permanent bottom frame,
and sort the events with compareScopes (qsort modelled by insertion sort over
the comparator's order; the comparator is total, and distinct events never
compare equal in the runs the engine produces, so the order is the same). -/
def renderNextLine (fuel : Nat) (r : Renderer) : Option (Option (Renderer × Line)) :=
  if r.offset ≥ r.bytes.length then some none
  else
    let lineBegin := r.offset
    let ao := advanceToNextLine r.bytes r.bytes.length r.offset
    let r' := { r with offset := ao.2 }
    let line : Line :=
      { scopes := [], lineBegin := lineBegin, lineEnd := ao.1, endIncludingNewline := ao.2 }
    match renderLine O G fuel r' line lineBegin ao.2 1 with
    | none => none
    | some (r'', line) =>
      some (some (r'', { line with scopes := List.insertionSort scopeLeRel line.scopes }))

/-! ### Claim C5: createBackreferencingPattern -/

/-- A backslash-digit pair sits at position i of t. -/
def backrefPairAt (t : List Nat) (i : Nat) : Prop :=
  i + 1 < t.length ∧ t.getD i 0 = 92 ∧ 48 ≤ t.getD (i + 1) 0 ∧ t.getD (i + 1) 0 ≤ 57

instance (t : List Nat) (i : Nat) : Decidable (backrefPairAt t i) := by
  unfold backrefPairAt; infer_instance

/-- The compiled copy as the code produces it, described pointwise: the
backslash of every backslash-digit pair becomes the character 0 (byte 48);
every other byte is unchanged. -/
def specStrip (t : List Nat) : List Nat :=
  (List.range t.length).map fun i => if backrefPairAt t i then 48 else t.getD i 0

/-- Does the source contain any backslash-digit pair? -/
def specHasPair (t : List Nat) : Bool :=
  (List.range t.length).any fun i => decide (backrefPairAt t i)

lemma getD_set_ne (l : List Nat) (i j v : Nat) (h : i ≠ j) :
    (l.set i v).getD j 0 = l.getD j 0 := by
  by_cases hj : j < l.length
  · rw [List.getD_eq_getElem _ _ (by simpa using hj), List.getD_eq_getElem _ _ hj]
    exact List.getElem_set_ne h _
  · rw [List.getD_eq_default _ _ (by simpa using Nat.le_of_not_lt hj),
      List.getD_eq_default _ _ (Nat.le_of_not_lt hj)]

lemma getD_set_self (l : List Nat) (i v : Nat) (h : i < l.length) :
    (l.set i v).getD i 0 = v := by
  rw [List.getD_eq_getElem _ _ (by simpa using h)]
  exact List.getElem_set_self _

lemma cbpGo_characterization_terminal (orig t : List Nat) (flag : Bool) (i : Nat)
    (h : ¬ (i + 1 < t.length))
    (hlen : t.length = orig.length)
    (hge : ∀ j, i ≤ j → t.getD j 0 = orig.getD j 0)
    (hlt : ∀ j, j < i → t.getD j 0 = if backrefPairAt orig j then 48 else orig.getD j 0)
    (hflag : flag = true ↔ ∃ j, j < i ∧ backrefPairAt orig j) :
    (t, flag) = (specStrip orig, specHasPair orig) := by
  have hnopair : ∀ j, i ≤ j → ¬ backrefPairAt orig j := by
    intro j hj hp
    have h1 := hp.1
    omega
  simp only [Prod.mk.injEq]
  constructor
  · apply List.ext_getElem
    · simp [specStrip, hlen]
    · intro j h1 h2
      have hj : j < orig.length := by simpa [specStrip] using h2
      have hspec : (specStrip orig)[j] = if backrefPairAt orig j then 48 else orig.getD j 0 := by
        simp [specStrip]
      rw [hspec, ← List.getD_eq_getElem t 0 h1]
      by_cases hji : j < i
      · exact hlt j hji
      · rw [if_neg (hnopair j (Nat.le_of_not_lt hji)), hge j (Nat.le_of_not_lt hji)]
  · rw [Bool.eq_iff_iff, hflag]
    simp only [specHasPair, List.any_eq_true, List.mem_range, decide_eq_true_eq]
    constructor
    · rintro ⟨j, hj, hp⟩
      exact ⟨j, by have h1 := hp.1; omega, hp⟩
    · rintro ⟨j, _, hp⟩
      refine ⟨j, ?_, hp⟩
      by_contra hji
      exact hnopair j (Nat.le_of_not_lt hji) hp

lemma cbpAux_characterization (orig : List Nat) :
    ∀ n i t flag, orig.length ≤ i + n →
    t.length = orig.length →
    (∀ j, i ≤ j → t.getD j 0 = orig.getD j 0) →
    (∀ j, j < i → t.getD j 0 = if backrefPairAt orig j then 48 else orig.getD j 0) →
    (flag = true ↔ ∃ j, j < i ∧ backrefPairAt orig j) →
    cbpAux n t i flag = (specStrip orig, specHasPair orig) := by
  intro n
  induction n with
  | zero =>
    intro i t flag hn hlen hge hlt hflag
    exact cbpGo_characterization_terminal orig t flag i (by omega) hlen hge hlt hflag
  | succ n ih =>
    intro i t flag hn hlen hge hlt hflag
    simp only [cbpAux]
    by_cases h : i + 1 < t.length
    · rw [if_pos h]
      by_cases hpair : t.getD i 0 = 92 ∧ 48 ≤ t.getD (i + 1) 0 ∧ t.getD (i + 1) 0 ≤ 57
      · rw [if_pos hpair]
        have hop : backrefPairAt orig i := by
          refine ⟨by omega, ?_, ?_, ?_⟩
          · rw [← hge i (Nat.le_refl i)]; exact hpair.1
          · rw [← hge (i + 1) (by omega)]; exact hpair.2.1
          · rw [← hge (i + 1) (by omega)]; exact hpair.2.2
        apply ih (i + 1) (t.set i 48) true (by omega) (by simpa using hlen)
        · intro j hj
          rw [getD_set_ne _ _ _ _ (by omega)]
          exact hge j (by omega)
        · intro j hj
          by_cases hji : j < i
          · rw [getD_set_ne _ _ _ _ (by omega)]
            exact hlt j hji
          · have hje : j = i := by omega
            subst hje
            rw [getD_set_self _ _ _ (by omega), if_pos hop]
        · exact ⟨fun _ => ⟨i, by omega, hop⟩, fun _ => rfl⟩
      · rw [if_neg hpair]
        have hnp : ¬ backrefPairAt orig i := by
          intro hp
          refine hpair ⟨?_, ?_, ?_⟩
          · rw [hge i (Nat.le_refl i)]; exact hp.2.1
          · rw [hge (i + 1) (by omega)]; exact hp.2.2.1
          · rw [hge (i + 1) (by omega)]; exact hp.2.2.2
        apply ih (i + 1) t flag (by omega) hlen
        · intro j hj; exact hge j (by omega)
        · intro j hj
          by_cases hji : j < i
          · exact hlt j hji
          · have hje : j = i := by omega
            subst hje
            rw [if_neg hnp]
            exact hge _ (Nat.le_refl _)
        · rw [hflag]
          constructor
          · rintro ⟨j, hj, hp⟩; exact ⟨j, by omega, hp⟩
          · rintro ⟨j, hj, hp⟩
            refine ⟨j, ?_, hp⟩
            rcases Nat.lt_or_ge j i with h' | h'
            · exact h'
            · have hje : j = i := by omega
              subst hje
              exact absurd hp hnp
    · rw [if_neg h]
      exact cbpGo_characterization_terminal orig t flag i h hlen hge hlt hflag

lemma cbpGo_spec (t : List Nat) : cbpGo t 0 false = (specStrip t, specHasPair t) :=
  cbpAux_characterization t (t.length - 0) 0 t false (by omega) rfl (fun _ _ => rfl)
    (fun j h => absurd h (Nat.not_lt_zero j)) (by simp)

/-- Oracle whose compiler accepts exactly one source text (and no other). -/
def onigOnly (src : List Nat) : Onig :=
  { onigNone with onigNew := fun s => if s = src then some (0, 0) else none }

/-- C5, counterexample.  The claim says the temporary compile copy replaces
each DIGIT of a backslash-digit pair with the character 0, so that a backslash
followed by 3 (bytes 92, 51) is compiled as backslash-0 (bytes 92, 48).  The
code instead overwrites the BACKSLASH, compiling bytes 48, 51 (the text 03):
a compiler accepting only the claim's copy makes the construction fail, while
one accepting only 03 succeeds. -/
theorem c5_counterexample :
    (cbpGo [92, 51] 0 false).1 = [48, 51] ∧
    (cbpGo [92, 51] 0 false).1 ≠ [92, 48] ∧
    createBackreferencingPattern (onigOnly [92, 48]) [92, 51] = none ∧
    (createBackreferencingPattern (onigOnly [48, 51]) [92, 51]).isSome = true := by
  decide

/-- C5, amended.  createBackreferencingPattern compiles a temporary copy in
which the BACKSLASH of every backslash-digit pair is replaced by the character
0 (specStrip); when such a pair occurs (specHasPair) the resulting pattern is
marked backreferencing and retains the original source verbatim; otherwise the
result is exactly createPattern's (no retained source). -/
theorem c5_amended (O : Onig) (regex : List Nat) :
    createBackreferencingPattern O regex =
      match createPattern O (specStrip regex) with
      | none => none
      | some p =>
        if specHasPair regex then
          some { p with backreferencingPattern := true, text := some regex,
                        len := regex.length }
        else some p := by
  unfold createBackreferencingPattern
  rw [cbpGo_spec]
  cases hc : createPattern O (specStrip regex) with
  | none => simp [hc]
  | some p => cases hs : specHasPair regex <;> simp [hc, hs]

/-! ### Claim C10: out-of-range numeric capture names -/

/-- An ASCII decimal digit. -/
def isDigitByte (c : Nat) : Bool := 48 ≤ c && c ≤ 57

/-- The mathematical value of an all-digit capture name (none when any byte is
not a digit); this is the claim's notion of the name's numeric value. -/
def decimalValue (name : List Nat) : Option Nat :=
  if name.all isDigitByte then
    some (name.foldl (fun a c => a * 10 + (c - 48)) 0)
  else none

lemma foldl_digits_acc (l : List Nat) :
    ∀ a : Nat, l.foldl (fun a c => a * 10 + (c - 48)) a =
      a * 10 ^ l.length + l.foldl (fun a c => a * 10 + (c - 48)) 0 := by
  induction l with
  | nil => intro a; simp
  | cons c rest ih =>
    intro a
    simp only [List.foldl_cons, List.length_cons]
    rw [ih (a * 10 + (c - 48)), ih (0 * 10 + (c - 48))]
    ring

lemma captureNameToIntGo_digits (name : List Nat) :
    ∀ r : Nat, r < 2 ^ 32 → name.all isDigitByte = true →
    captureNameToIntGo name r =
      (if (r * 10 ^ name.length + name.foldl (fun a c => a * 10 + (c - 48)) 0) % 2 ^ 32
          > INT_MAX
       then -1
       else (((r * 10 ^ name.length +
          name.foldl (fun a c => a * 10 + (c - 48)) 0) % 2 ^ 32 : Nat) : Int)) := by
  induction name with
  | nil =>
    intro r hr _
    have hrr : r % 2 ^ 32 = r := Nat.mod_eq_of_lt hr
    simp only [captureNameToIntGo, List.length_nil, pow_zero, mul_one, List.foldl_nil,
      add_zero, hrr]
  | cons c rest ih =>
    intro r hr hall
    simp only [List.all_cons, Bool.and_eq_true] at hall
    have hc : 48 ≤ c ∧ c ≤ 57 := by
      have h1 := hall.1
      simp only [isDigitByte, Bool.and_eq_true, decide_eq_true_eq] at h1
      exact h1
    simp only [captureNameToIntGo]
    rw [if_neg (by omega)]
    rw [ih _ (Nat.mod_lt _ (by norm_num)) hall.2]
    have key : ((r * 10 % 2 ^ 32 + (c - 48)) % 2 ^ 32) * 10 ^ rest.length +
        rest.foldl (fun a c => a * 10 + (c - 48)) 0 ≡
        (r * 10 + (c - 48)) * 10 ^ rest.length +
        rest.foldl (fun a c => a * 10 + (c - 48)) 0 [MOD 2 ^ 32] := by
      apply Nat.ModEq.add_right
      apply Nat.ModEq.mul_right
      calc (r * 10 % 2 ^ 32 + (c - 48)) % 2 ^ 32
          ≡ r * 10 % 2 ^ 32 + (c - 48) [MOD 2 ^ 32] := Nat.mod_modEq _ _
        _ ≡ r * 10 + (c - 48) [MOD 2 ^ 32] :=
            Nat.ModEq.add_right _ (Nat.mod_modEq _ _)
    have key2 : (r * 10 + (c - 48)) * 10 ^ rest.length +
        rest.foldl (fun a c => a * 10 + (c - 48)) 0 =
        r * 10 ^ (c :: rest).length +
        (c :: rest).foldl (fun a c => a * 10 + (c - 48)) 0 := by
      simp only [List.length_cons, List.foldl_cons]
      rw [foldl_digits_acc rest (0 * 10 + (c - 48))]
      ring
    rw [Nat.ModEq] at key
    rw [key, key2]

lemma captureNameToInt_of_digits (name : List Nat) (v : Nat)
    (hv : decimalValue name = some v) :
    captureNameToInt name =
      if v % 2 ^ 32 > INT_MAX then -1 else ((v % 2 ^ 32 : Nat) : Int) := by
  have hall : name.all isDigitByte = true := by
    unfold decimalValue at hv
    by_cases h : name.all isDigitByte = true
    · exact h
    · rw [if_neg h] at hv; cases hv
  have hfold : name.foldl (fun a c => a * 10 + (c - 48)) 0 = v := by
    unfold decimalValue at hv
    rw [if_pos hall] at hv
    injection hv
  unfold captureNameToInt
  rw [captureNameToIntGo_digits name 0 (by norm_num) hall]
  rw [Nat.zero_mul, Nat.zero_add, hfold]

/-- C10, amended.  A digit-only capture name is parsed through a wrapping
32-bit accumulator, so out-of-range means: the value REDUCED MODULO 2^32 is
above INT_MAX or at least p.captures.  Such a name (when the engine's
named-group lookup also fails, as it does for digit-only names in Oniguruma)
leaves both captureScopes and captureStates unchanged. -/
theorem c10_amended (O : Onig) (p : Pattern) (name : List Nat) (scope : ScopeName)
    (st : Nat) (v : Nat)
    (hv : decimalValue name = some v)
    (hrange : INT_MAX < v % 2 ^ 32 ∨ p.captures ≤ v % 2 ^ 32)
    (hlookup : O.nameToGroupNumbers p.re name = none) :
    setCaptureScope O p name scope = p ∧ setCaptureState O p name st = p := by
  have hcni := captureNameToInt_of_digits name v hv
  have hcond : ¬ (0 ≤ captureNameToInt name ∧ captureNameToInt name < (p.captures : Int)) := by
    rw [hcni]
    rcases hrange with h | h
    · rw [if_pos (by omega)]
      rintro ⟨h0, _⟩
      norm_num at h0
    · by_cases hgt : v % 2 ^ 32 > INT_MAX
      · rw [if_pos hgt]
        rintro ⟨h0, _⟩
        norm_num at h0
      · rw [if_neg hgt]
        rintro ⟨_, hlt⟩
        have hle : (p.captures : Int) ≤ ((v % 2 ^ 32 : Nat) : Int) := Int.ofNat_le.mpr h
        omega
  constructor
  · simp only [setCaptureScope, if_neg hcond, hlookup]
  · simp only [setCaptureState, if_neg hcond, hlookup]

/-- A pattern with three capture slots (groups 0..2), nothing set. -/
def pCap3 : Pattern :=
  { re := 0, innerScope := 0, outerScope := 0, captures := 3,
    captureScopes := [0, 0, 0], captureStates := [none, none, none],
    backreferencingPattern := false, text := none, len := 0 }

/-- A pattern with one capture slot (group 0 only), nothing set. -/
def pCap1 : Pattern :=
  { re := 0, innerScope := 0, outerScope := 0, captures := 1,
    captureScopes := [0], captureStates := [none],
    backreferencingPattern := false, text := none, len := 0 }

/-- The digits of 4294967296 = 2^32. -/
def nameTwoPow32 : List Nat := [52, 50, 57, 52, 57, 54, 55, 50, 57, 54]

/-- C10, counterexample.  The all-digit name 4294967296 has numeric value 2^32,
far out of range for a pattern with a single capture group, so the claim says
the call is ignored; but the uint32 accumulator of captureNameToInt wraps it
to 0, and both setters modify slot 0. -/
theorem c10_counterexample :
    decimalValue nameTwoPow32 = some 4294967296 ∧
    pCap1.captures ≤ 4294967296 ∧
    setCaptureScope onigNone pCap1 nameTwoPow32 7 ≠ pCap1 ∧
    setCaptureState onigNone pCap1 nameTwoPow32 3 ≠ pCap1 := by
  decide

/-- Witness for c10_amended: the digit name 5 is out of range for a pattern
with 3 capture slots, the lookup oracle fails, and both setters are no-ops. -/
theorem c10_witness :
    decimalValue [53] = some 5 ∧
    (INT_MAX < 5 % 2 ^ 32 ∨ pCap3.captures ≤ 5 % 2 ^ 32) ∧
    onigNone.nameToGroupNumbers pCap3.re [53] = none ∧
    setCaptureScope onigNone pCap3 [53] 9 = pCap3 ∧
    setCaptureState onigNone pCap3 [53] 4 = pCap3 := by
  refine ⟨by decide, Or.inr (by decide), rfl, ?_, ?_⟩
  · exact (c10_amended onigNone pCap3 [53] 9 4 5 (by decide) (Or.inr (by decide)) rfl).1
  · exact (c10_amended onigNone pCap3 [53] 9 4 5 (by decide) (Or.inr (by decide)) rfl).2

/-! ### Claim C9: firstLineMatch -/

/-- The first line of the input occupies [offset0, b), followed by a consumed
terminator ending at o: no LF or CR strictly before b, and at b either the
input ends (nothing consumed), an LF (one byte), a CRLF (two bytes), or a CR
not followed by LF (one byte). -/
def IsFirstLineSplit (bytes : List Nat) (len b o : Nat) : Prop :=
  b ≤ len ∧ (∀ j, j < b → bytes.getD j 0 ≠ 10 ∧ bytes.getD j 0 ≠ 13) ∧
  ((b = len ∧ o = len) ∨
   (b < len ∧ bytes.getD b 0 = 10 ∧ o = b + 1) ∨
   (b < len ∧ bytes.getD b 0 = 13 ∧ b + 1 < len ∧ bytes.getD (b + 1) 0 = 10 ∧ o = b + 2) ∨
   (b < len ∧ bytes.getD b 0 = 13 ∧ ¬ (b + 1 < len ∧ bytes.getD (b + 1) 0 = 10) ∧
     o = b + 1))

lemma advanceGo_split (bytes : List Nat) (len : Nat) :
    ∀ n offset, offset ≤ len → len ≤ offset + n →
    offset ≤ (advanceGo bytes len n offset).1 ∧
    (advanceGo bytes len n offset).1 ≤ len ∧
    (∀ j, offset ≤ j → j < (advanceGo bytes len n offset).1 →
      bytes.getD j 0 ≠ 10 ∧ bytes.getD j 0 ≠ 13) ∧
    (((advanceGo bytes len n offset).1 = len ∧ (advanceGo bytes len n offset).2 = len) ∨
     ((advanceGo bytes len n offset).1 < len ∧
       bytes.getD (advanceGo bytes len n offset).1 0 = 10 ∧
       (advanceGo bytes len n offset).2 = (advanceGo bytes len n offset).1 + 1) ∨
     ((advanceGo bytes len n offset).1 < len ∧
       bytes.getD (advanceGo bytes len n offset).1 0 = 13 ∧
       (advanceGo bytes len n offset).1 + 1 < len ∧
       bytes.getD ((advanceGo bytes len n offset).1 + 1) 0 = 10 ∧
       (advanceGo bytes len n offset).2 = (advanceGo bytes len n offset).1 + 2) ∨
     ((advanceGo bytes len n offset).1 < len ∧
       bytes.getD (advanceGo bytes len n offset).1 0 = 13 ∧
       ¬ ((advanceGo bytes len n offset).1 + 1 < len ∧
          bytes.getD ((advanceGo bytes len n offset).1 + 1) 0 = 10) ∧
       (advanceGo bytes len n offset).2 = (advanceGo bytes len n offset).1 + 1)) := by
  intro n
  induction n with
  | zero =>
    intro offset h1 h2
    have he : offset = len := by omega
    simp only [advanceGo]
    exact ⟨Nat.le_refl _, by omega, fun j hj1 hj2 => absurd (show j < offset from hj2) (by omega), Or.inl ⟨he, he⟩⟩
  | succ n ih =>
    intro offset h1 h2
    simp only [advanceGo]
    by_cases hge : offset ≥ len
    · rw [if_pos hge]
      have he : offset = len := by omega
      exact ⟨Nat.le_refl _, by omega, fun j hj1 hj2 => absurd (show j < offset from hj2) (by omega), Or.inl ⟨he, he⟩⟩
    · rw [if_neg hge]
      by_cases h10 : bytes.getD offset 0 = 10
      · rw [if_pos h10]
        exact ⟨Nat.le_refl _, by omega, fun j hj1 hj2 => absurd (show j < offset from hj2) (by omega), Or.inr (Or.inl ⟨by omega, h10, rfl⟩)⟩
      · rw [if_neg h10]
        by_cases h13 : bytes.getD offset 0 = 13
        · rw [if_pos h13]
          by_cases hlf : offset + 1 < len ∧ bytes.getD (offset + 1) 0 = 10
          · rw [if_pos hlf]
            exact ⟨Nat.le_refl _, by omega, fun j hj1 hj2 => absurd (show j < offset from hj2) (by omega),
              Or.inr (Or.inr (Or.inl ⟨by omega, h13, hlf.1, hlf.2, rfl⟩))⟩
          · rw [if_neg hlf]
            exact ⟨Nat.le_refl _, by omega, fun j hj1 hj2 => absurd (show j < offset from hj2) (by omega),
              Or.inr (Or.inr (Or.inr ⟨by omega, h13, hlf, rfl⟩))⟩
        · rw [if_neg h13]
          obtain ⟨k1, k2, k3, k4⟩ := ih (offset + 1) (by omega) (by omega)
          refine ⟨by omega, k2, ?_, k4⟩
          intro j hj1 hj2
          rcases Nat.eq_or_lt_of_le hj1 with he | hlt
          · rw [he] at h10 h13
            exact ⟨h10, h13⟩
          · exact k3 j hlt hj2

/-- C9, counterexample.  The oracle models onig_match for the literal regex d:
a match at a position succeeds iff that byte is d (100).  On input abcd LF the
pattern matches within the first line (at offset 3, inside the line [0, 4)),
but firstLineMatch is false, because the code anchors onig_match at offset 0
instead of searching the line; so the claim's "matches somewhere within that
first line's bytes" is wrong. -/
def dOracle : Onig :=
  { onigNone with
    onigMatch := fun _ bytes stop atPos => decide (atPos < stop ∧ bytes.getD atPos 0 = 100) }

theorem c9_counterexample :
    firstLineMatch dOracle [97, 98, 99, 100, 10] 5 pCap1 = false ∧
    (advanceToNextLine [97, 98, 99, 100, 10] 5 0).1 = 4 ∧
    3 < 4 ∧ dOracle.onigMatch pCap1.re [97, 98, 99, 100, 10] 4 3 = true := by
  decide

/-- C9, amended.  firstLineMatch consumes the first line plus its terminator
(LF, CR, or CRLF: IsFirstLineSplit characterizes the consumed offset o and the
line end b), and returns exactly onig_match of the pattern ANCHORED AT
POSITION 0, with the subject window ending at o, which includes the
terminator (not: a search anywhere within the first line's bytes). -/
theorem c9_amended (O : Onig) (bytes : List Nat) (len : Nat) (p : Pattern) :
    firstLineMatch O bytes len p =
      O.onigMatch p.re bytes (advanceToNextLine bytes len 0).2 0 ∧
    IsFirstLineSplit bytes len (advanceToNextLine bytes len 0).1
      (advanceToNextLine bytes len 0).2 := by
  constructor
  · rfl
  · obtain ⟨k1, k2, k3, k4⟩ := advanceGo_split bytes len (len - 0) 0 (Nat.zero_le len)
      (by omega)
    exact ⟨k2, fun j hj => k3 j (Nat.zero_le j) hj, k4⟩

/-! ### Claim C4: backreference expansion -/

/-- The expansion as the spec describes it (4.3), recursing on the retained
source structurally: every two-byte backslash-digit pair d becomes the
octal-escape-per-byte encoding of the begin match's capture d (failing when d
is out of regs, did not participate, or has inconsistent indices); every other
byte passes through verbatim.  This is the comparison definition for the
refinement claim C4; the code's loop is expandGo. -/
def specExpand (bytes : List Nat) (beginOffset : Nat) (reg : Region) :
    List Nat → Option (List Nat)
  | [] => some []
  | [b] => some [b]
  | b :: c :: rest =>
    if b = 92 ∧ 48 ≤ c ∧ c ≤ 57 then
      if c - 48 ≥ reg.numRegs ∨ reg.beg (c - 48) < 0 ∨
          reg.rend (c - 48) < reg.beg (c - 48) then none
      else
        (specExpand bytes beginOffset reg rest).map
          (fun tail =>
            (List.range ((beginOffset + (reg.rend (c - 48)).toNat) -
                (beginOffset + (reg.beg (c - 48)).toNat))).flatMap
              (fun j => octalEscape
                (bytes.getD ((beginOffset + (reg.beg (c - 48)).toNat) + j) 0)) ++ tail)
    else (specExpand bytes beginOffset reg (c :: rest)).map (fun tail => b :: tail)

lemma growSize_ge :
    ∀ fuel size reserved size', growSize fuel size reserved = some size' → size ≤ size' := by
  intro fuel
  induction fuel with
  | zero => intro size reserved size' h; cases h
  | succ fuel ih =>
    intro size reserved size' h
    simp only [growSize] at h
    by_cases h1 : reserved > size
    · rw [if_pos h1] at h
      by_cases h2 : size > SIZE_MAX / 2
      · rw [if_pos h2] at h; cases h
      · rw [if_neg h2] at h
        have := ih _ _ _ h
        omega
    · rw [if_neg h1] at h
      injection h with h
      omega

lemma growSize_some :
    ∀ fuel size reserved, 1 ≤ size → reserved ≤ SIZE_MAX / 2 → fuel ≠ 0 →
    reserved ≤ size * 2 ^ (fuel - 1) →
    ∃ size', growSize fuel size reserved = some size' ∧ 1 ≤ size' := by
  intro fuel
  induction fuel with
  | zero => intro _ _ _ _ h _; exact absurd rfl h
  | succ fuel ih =>
    intro size reserved hs hr _ hfit
    simp only [growSize]
    by_cases h1 : reserved > size
    · rw [if_pos h1, if_neg (by omega)]
      rcases Nat.eq_zero_or_pos fuel with hf | hf
      · subst hf
        have hf2 : size * 2 ^ (0 + 1 - 1) = size := by norm_num
        omega
      · refine ih (size * 2) reserved (by omega) hr (by omega) ?_
        have : size * 2 * 2 ^ (fuel - 1) = size * 2 ^ (fuel + 1 - 1) := by
          rw [Nat.mul_assoc]
          congr 1
          rw [← pow_succ']
          congr 1
          omega
        omega
    · rw [if_neg h1]
      exact ⟨size, rfl, hs⟩

lemma octal_chunk_length (bytes : List Nat) (start : Nat) :
    ∀ k, ((List.range k).flatMap fun j => octalEscape (bytes.getD (start + j) 0)).length
      = 4 * k := by
  intro k
  induction k with
  | zero => simp
  | succ k ih =>
    rw [List.range_succ, List.flatMap_append, List.length_append, ih]
    simp only [List.flatMap_cons, List.flatMap_nil, List.append_nil, octalEscape,
      List.length_cons, List.length_nil]
    omega

lemma drop_cons_getD (t : List Nat) (i : Nat) (hi : i < t.length) :
    t.drop i = t.getD i 0 :: t.drop (i + 1) := by
  rw [List.drop_eq_getElem_cons hi, List.getD_eq_getElem t 0 hi]

lemma expandGo_eq_spec (t : List Nat) (reg : Region) (beginOffset : Nat) (bytes : List Nat)
    (hlen : t.length ≤ 2 ^ 20)
    (hreg : ∀ d, d < reg.numRegs → beginOffset + (reg.rend d).toNat ≤ 2 ^ 20) :
    ∀ n i acc size, t.length ≤ i + n →
    (1 ≤ size ∨ t.length ≤ i) →
    acc.length ≤ (4 * 2 ^ 20 + 1) * i →
    expandGo t t.length reg beginOffset bytes n i acc size =
      (specExpand bytes beginOffset reg (t.drop i)).map (fun tail => acc ++ tail) := by
  intro n
  induction n with
  | zero =>
    intro i acc size hn _ _
    have hge : t.length ≤ i := by omega
    rw [List.drop_eq_nil_of_le hge]
    simp [expandGo, specExpand]
  | succ n ih =>
    intro i acc size hn hsize hacc
    by_cases hi : i < t.length
    case neg =>
      have hge : t.length ≤ i := by omega
      rw [List.drop_eq_nil_of_le hge]
      simp only [expandGo, if_neg hi, specExpand, Option.map_some]
      simp
    case pos =>
    simp only [expandGo, if_pos hi]
    have hsz : 1 ≤ size := by
      rcases hsize with h | h
      · exact h
      · omega
    have hdrop : t.drop i = t.getD i 0 :: t.drop (i + 1) := drop_cons_getD t i hi
    by_cases hp : i + 1 < t.length ∧ t.getD i 0 = 92 ∧ 48 ≤ t.getD (i + 1) 0 ∧
        t.getD (i + 1) 0 ≤ 57
    · rw [if_pos hp]
      have hdrop2 : t.drop (i + 1) = t.getD (i + 1) 0 :: t.drop (i + 2) :=
        drop_cons_getD t (i + 1) hp.1
      rw [hdrop, hdrop2]
      by_cases hbad : t.getD (i + 1) 0 - 48 ≥ reg.numRegs ∨
          reg.beg (t.getD (i + 1) 0 - 48) < 0 ∨
          reg.rend (t.getD (i + 1) 0 - 48) < reg.beg (t.getD (i + 1) 0 - 48)
      · rw [if_pos hbad]
        simp only [specExpand]
        rw [if_pos ⟨hp.2.1, hp.2.2.1, hp.2.2.2⟩, if_pos hbad]
        rfl
      · rw [if_neg hbad]
        have hdlt : t.getD (i + 1) 0 - 48 < reg.numRegs := by
          rcases Nat.lt_or_ge (t.getD (i + 1) 0 - 48) reg.numRegs with h | h
          · exact h
          · exact absurd (Or.inl h) hbad
        have hstop : beginOffset + (reg.rend (t.getD (i + 1) 0 - 48)).toNat ≤ 2 ^ 20 :=
          hreg _ hdlt
        have hchunk := octal_chunk_length bytes
          (beginOffset + (reg.beg (t.getD (i + 1) 0 - 48)).toNat)
          ((beginOffset + (reg.rend (t.getD (i + 1) 0 - 48)).toNat) -
            (beginOffset + (reg.beg (t.getD (i + 1) 0 - 48)).toNat))
        obtain ⟨size', hgs, hs1⟩ := growSize_some 66 size
          (acc.length + 4 * ((beginOffset + (reg.rend (t.getD (i + 1) 0 - 48)).toNat) -
            (beginOffset + (reg.beg (t.getD (i + 1) 0 - 48)).toNat)) + t.length - (i + 1))
          hsz
          (by unfold SIZE_MAX; omega)
          (by omega)
          (by
            have h65 : (2 : Nat) ^ 65 = 36893488147419103232 := by norm_num
            have hm : (2 : Nat) ^ (66 - 1) ≤ size * 2 ^ (66 - 1) :=
              Nat.le_mul_of_pos_left _ hsz
            omega)
        simp only [hgs]
        rw [ih (i + 2) _ size' (by omega) (Or.inl hs1) (by
          rw [List.length_append, hchunk]
          omega)]
        simp only [specExpand]
        rw [if_pos ⟨hp.2.1, hp.2.2.1, hp.2.2.2⟩, if_neg hbad]
        cases specExpand bytes beginOffset reg (t.drop (i + 2)) with
        | none => rfl
        | some tail => simp [List.append_assoc]
    · rw [if_neg hp]
      rw [ih (i + 1) (acc ++ [t.getD i 0]) size (by omega) (Or.inl hsz) (by
        rw [List.length_append]
        simp only [List.length_cons, List.length_nil]
        omega)]
      rw [hdrop]
      cases hnext : t.drop (i + 1) with
      | nil =>
        simp only [specExpand]
        simp
      | cons y rest =>
        have hi1 : i + 1 < t.length := by
          by_contra hc
          rw [List.drop_eq_nil_of_le (by omega)] at hnext
          cases hnext
        have hy : y = t.getD (i + 1) 0 := by
          rw [drop_cons_getD t (i + 1) hi1] at hnext
          injection hnext with h1 _
          exact h1.symm
        have hnopair : ¬ (t.getD i 0 = 92 ∧ 48 ≤ y ∧ y ≤ 57) := by
          intro hcon
          rw [hy] at hcon
          exact hp ⟨hi1, hcon⟩
        simp only [specExpand]
        rw [if_neg hnopair]
        rw [← hnext]
        cases specExpand bytes beginOffset reg (t.drop (i + 1)) with
        | none => rfl
        | some tail => simp

/-- C4.  For a backreferencing end/while pattern with no cached regex and a
saved begin region, the search compiles and searches exactly the expansion the
spec describes — every backslash-digit pair d replaced by the four-byte octal
escape of each captured byte, everything else verbatim (specExpand) — and when
the expansion fails (capture absent or inconsistent) the search reports no
match and leaves the cache empty.  The size bounds keep the source's
SIZE_MAX buffer guards from firing (they only can on absurdly large
expansions). -/
theorem c4_expansionSearch (O : Onig) (r : Renderer) (a : ActiveState) (p : Pattern)
    (args : SearchArgs) (breg : Region) (t : List Nat)
    (hp : p.backreferencingPattern = true)
    (hb : a.beginRegion = some breg)
    (ht : p.text = some t)
    (hl : p.len = t.length)
    (hlen : t.length ≤ 2 ^ 20)
    (hreg : ∀ d, d < breg.numRegs → a.beginOffset + (breg.rend d).toNat ≤ 2 ^ 20) :
    backreferencingSearch O r a none p args =
      match specExpand r.bytes a.beginOffset breg t with
      | none => (none, none)
      | some replaced =>
        match O.onigNew replaced with
        | none => (none, none)
        | some (cre, _) => (some cre, O.search cre args) := by
  unfold backreferencingSearch
  rw [hp, hb, ht, hl]
  simp only [Bool.not_true, Bool.false_eq_true, if_false, Option.getD_some]
  rw [if_neg (by unfold SIZE_MAX; omega)]
  rw [expandGo_eq_spec t breg a.beginOffset r.bytes hlen hreg t.length 0 [] (t.length * 2)
    (by omega) (by omega) (by simp)]
  rw [List.drop_zero]
  cases specExpand r.bytes a.beginOffset breg t with
  | none => rfl
  | some replaced =>
    show (match O.onigNew ([] ++ replaced) with
      | none => ((none : Option Nat), (none : Option Region))
      | some (cre, _) => (some cre, O.search cre args)) = _
    rw [List.nil_append]

/-- Concrete begin region for the C4 witness: group 1 spans input bytes
[1, 3). -/
def wReg : Region :=
  { numRegs := 2, beg := fun d => if d = 1 then 1 else 0,
    rend := fun d => if d = 1 then 3 else 0 }

/-- Concrete backreferencing pattern for the C4 witness, with retained source
a backslash-1 b. -/
def wPat : Pattern :=
  { re := 9, innerScope := 0, outerScope := 0, captures := 2,
    captureScopes := [0, 0], captureStates := [none, none],
    backreferencingPattern := true, text := some [97, 92, 49, 98], len := 4 }

/-- Concrete frame for the C4 witness. -/
def wFrame : ActiveState :=
  { ActiveState.empty with beginRegion := some wReg, beginOffset := 0 }

/-- Concrete renderer for the C4 witness (input bytes x y z). -/
def wRend : Renderer :=
  { bytes := [120, 121, 122], offset := 0, stack := [], seq := 0 }

/-- Concrete search window for the C4 witness. -/
def wArgs : SearchArgs :=
  { bytes := [120, 121, 122], str := 0, stop := 3, start := 0, range := 3,
    notBeginPosition := false }

/-- Witness for c4_expansionSearch at a concrete backreferencing pattern,
begin region and renderer. -/
theorem c4_witness :
    (wPat.backreferencingPattern = true ∧ wFrame.beginRegion = some wReg ∧
     wPat.text = some [97, 92, 49, 98] ∧ wPat.len = ([97, 92, 49, 98] : List Nat).length ∧
     ([97, 92, 49, 98] : List Nat).length ≤ 2 ^ 20 ∧
     (∀ d, d < wReg.numRegs → wFrame.beginOffset + (wReg.rend d).toNat ≤ 2 ^ 20)) ∧
    backreferencingSearch onigNone wRend wFrame none wPat wArgs =
      match specExpand wRend.bytes wFrame.beginOffset wReg [97, 92, 49, 98] with
      | none => (none, none)
      | some replaced =>
        match onigNone.onigNew replaced with
        | none => (none, none)
        | some (cre, _) => (some cre, onigNone.search cre wArgs) :=
  ⟨⟨rfl, rfl, rfl, rfl, by norm_num, by decide⟩,
   c4_expansionSearch onigNone wRend wFrame wPat wArgs wReg [97, 92, 49, 98]
     rfl rfl rfl rfl (by norm_num) (by decide)⟩

/-! ### Claims C1, C2, C6: dispatch tie-breaking and the stack-overflow path -/

@[simp] lemma addScopeRange_lineBegin (line : Line) (n : ScopeName) (s b e : Nat) :
    (addScopeRange line n s b e).lineBegin = line.lineBegin := by
  simp only [addScopeRange, addScope]
  repeat' split
  all_goals rfl

@[simp] lemma addScopeRange_lineEnd (line : Line) (n : ScopeName) (s b e : Nat) :
    (addScopeRange line n s b e).lineEnd = line.lineEnd := by
  simp only [addScopeRange, addScope]
  repeat' split
  all_goals rfl

@[simp] lemma addScopeRange_endIncludingNewline (line : Line) (n : ScopeName) (s b e : Nat) :
    (addScopeRange line n s b e).endIncludingNewline = line.endIncludingNewline := by
  simp only [addScopeRange, addScope]
  repeat' split
  all_goals rfl

@[simp] lemma stackWrite_bytes (r : Renderer) (i : Nat) (a : ActiveState) :
    (stackWrite r i a).bytes = r.bytes := rfl

/-- Is the step outcome a halt (the dispatch loop stops for the line)? -/
def stepIsHalt : Option StepOut → Bool
  | some (StepOut.halt _ _) => true
  | _ => false

/-- The stack depth carried by a step outcome. -/
def stepStackLength : Option StepOut → Option Nat
  | some (StepOut.halt r _) => some r.stack.length
  | some (StepOut.cont r _ _ _ _) => some r.stack.length
  | none => none

/-- The scope-event count carried by a step outcome. -/
def stepScopeCount : Option StepOut → Option Nat
  | some (StepOut.halt _ line) => some line.scopes.length
  | some (StepOut.cont _ line _ _ _) => some line.scopes.length
  | none => none

/-- The tie-break condition exactly as claim C1 words it: the end search
failed, or the regular match starts strictly before the end match, or the
applyEndPatternLast flag is set and both matches start at the same offset. -/
def ClaimRegularCond (al : Bool) (mp : Int) (er : Option Region) : Prop :=
  er = none ∨ ∃ ereg, er = some ereg ∧
    (mp < ereg.beg 0 ∨ (al = true ∧ mp = ereg.beg 0))

lemma regularWinsB_iff (al : Bool) (mp : Int) (er : Option Region) :
    regularWinsB al mp er = true ↔ ClaimRegularCond al mp er := by
  cases er with
  | none => simp [regularWinsB, ClaimRegularCond]
  | some ereg =>
    simp [regularWinsB, ClaimRegularCond]

lemma endBranch_spec (O : Onig) (G : Grammar) (fuel stackBase : Nat) (r : Renderer)
    (line : Line) (a : ActiveState) (ereg : Region) (maxOffset mwp : Nat)
    (sid : Nat) (ep : Pattern) (r2 : Renderer) (line2 : Line)
    (hs : a.s = some sid)
    (hep : (G.states sid).endPattern = some ep)
    (hrc : renderCaptures O G fuel r line ep ereg 0 = some (r2, line2)) :
    (r2.stack.length ≤ stackBase →
      endBranch O G (fuel + 1) stackBase r line a ereg maxOffset mwp =
        some (StepOut.halt r2 line2)) ∧
    (∀ ap, a.p = some ap → stackBase < r2.stack.length →
      endBranch O G (fuel + 1) stackBase r line a ereg maxOffset mwp =
        some (StepOut.cont (popStack r2 (r2.stack.length - 1))
          (addScopeRange
            (addScopeRange line2 ap.innerScope a.innerSeq a.innerBegin
              (line2.lineBegin + (ereg.beg 0).toNat))
            ap.outerScope a.outerSeq a.outerBegin
            (line2.lineBegin + (ereg.rend 0).toNat))
          (line2.lineBegin + (ereg.rend 0).toNat) maxOffset mwp)) := by
  constructor
  · intro hle
    simp only [endBranch, hs, hep, hrc]
    rw [if_pos hle]
  · intro ap hap hgt
    simp only [endBranch, hs, hep, hrc, hap]
    rw [if_neg (by omega)]
    simp only [addScopeRange_lineBegin]

/-- C1, amended.  With the regset search successful, the regular rule is
applied exactly under the claim's condition (ClaimRegularCond); in the other
cases where the end search succeeded the end branch runs, which emits the end
captures and — only when the stack depth exceeds the render call's stack
base — emits the frame's scope ranges and pops it; at or below the base the
dispatch loop halts without popping (C: the stack-underflow break). -/
theorem c1_amended (O : Onig) (G : Grammar) (fuel stackBase e : Nat) (r : Renderer)
    (line : Line) (offset maxOffset mwp : Nat) (a : ActiveState) (sid : Nat)
    (res : Nat) (matchpos : Int) (region : Region) (er : Option Nat × Option Region)
    (hlast : r.stack.getLast? = some a)
    (hs : a.s = some sid)
    (her : (match (G.states sid).endPattern with
            | none => (a.endRegex, (none : Option Region))
            | some ep => backreferencingSearch O r a a.endRegex ep
                { bytes := r.bytes, str := line.lineBegin, stop := line.endIncludingNewline,
                  start := offset, range := e,
                  notBeginPosition := decide (offset > a.innerBegin) }) = er)
    (hregset : O.regsetSearch sid
        { bytes := r.bytes, str := line.lineBegin, stop := line.endIncludingNewline,
          start := offset, range := e,
          notBeginPosition := decide (offset > a.innerBegin) } = some (res, matchpos, region)) :
    (ClaimRegularCond (G.states sid).applyEndPatternLast matchpos er.2 →
      dispatchStep O G (fuel + 1) stackBase e r line offset maxOffset mwp =
        match (G.states sid).patterns[res]? with
        | none => some (StepOut.halt
            (stackWrite r (r.stack.length - 1) { a with endRegex := er.1 }) line)
        | some pis => regularBranch O G fuel
            (stackWrite r (r.stack.length - 1) { a with endRegex := er.1 })
            line maxOffset mwp pis region) ∧
    (¬ ClaimRegularCond (G.states sid).applyEndPatternLast matchpos er.2 →
      ∀ ereg, er.2 = some ereg →
        dispatchStep O G (fuel + 1) stackBase e r line offset maxOffset mwp =
          endBranch O G fuel stackBase
            (stackWrite r (r.stack.length - 1) { a with endRegex := er.1 })
            line a ereg maxOffset mwp) ∧
    (∀ gfuel r' line' ereg ep r2 line2,
      (G.states sid).endPattern = some ep →
      renderCaptures O G gfuel r' line' ep ereg 0 = some (r2, line2) →
      (r2.stack.length ≤ stackBase →
        endBranch O G (gfuel + 1) stackBase r' line' a ereg maxOffset mwp =
          some (StepOut.halt r2 line2)) ∧
      (∀ ap, a.p = some ap → stackBase < r2.stack.length →
        endBranch O G (gfuel + 1) stackBase r' line' a ereg maxOffset mwp =
          some (StepOut.cont (popStack r2 (r2.stack.length - 1))
            (addScopeRange
              (addScopeRange line2 ap.innerScope a.innerSeq a.innerBegin
                (line2.lineBegin + (ereg.beg 0).toNat))
              ap.outerScope a.outerSeq a.outerBegin
              (line2.lineBegin + (ereg.rend 0).toNat))
            (line2.lineBegin + (ereg.rend 0).toNat) maxOffset mwp))) := by
  refine ⟨?_, ?_, ?_⟩
  · intro hcond
    have hb : regularWinsB (G.states sid).applyEndPatternLast matchpos er.2 = true :=
      (regularWinsB_iff _ _ _).mpr hcond
    simp only [dispatchStep, hlast, hs, her, stackWrite_bytes, hregset, hb, if_true]
  · intro hcond ereg he2
    have hb : regularWinsB (G.states sid).applyEndPatternLast matchpos er.2 = false := by
      rcases Bool.eq_false_or_eq_true
        (regularWinsB (G.states sid).applyEndPatternLast matchpos er.2) with h | h
      · exact absurd ((regularWinsB_iff _ _ _).mp h) hcond
      · exact h
    rw [he2] at hb
    simp only [dispatchStep, hlast, hs, her, stackWrite_bytes, hregset, hb, he2,
      Bool.false_eq_true, if_false]
  · intro gfuel r' line' ereg ep r2 line2 hep hrc
    exact endBranch_spec O G gfuel stackBase r' line' a ereg maxOffset mwp sid ep r2
      line2 hs hep hrc

/-- End pattern of the C1/C2 scenarios (compiled regex handle 1, one capture
slot, nothing scoped). -/
def c1Ep : Pattern :=
  { re := 1, innerScope := 0, outerScope := 0, captures := 1, captureScopes := [0],
    captureStates := [none], backreferencingPattern := false, text := none, len := 0 }

/-- Match-rule pattern of the C1/C2 scenarios (handle 2). -/
def c1Mp : Pattern :=
  { re := 2, innerScope := 0, outerScope := 0, captures := 1, captureScopes := [0],
    captureStates := [none], backreferencingPattern := false, text := none, len := 0 }

/-- The end match of the C1 scenario: at offset 0, one byte long. -/
def c1Ereg : Region := { numRegs := 1, beg := fun _ => 0, rend := fun _ => 1 }

/-- The regset match of the C1 scenario: at offset 1, ending at 2. -/
def c1RegM : Region := { numRegs := 1, beg := fun _ => 1, rend := fun _ => 2 }

/-- The C1 state: one MATCH rule, an end pattern, applyEndPatternLast off. -/
def c1St : StateData :=
  { whilePattern := none, endPattern := some c1Ep, applyEndPatternLast := false,
    patterns := [{ type := RuleType.MATCH, p := c1Mp, toState := 0 }] }

/-- The C1 grammar. -/
def c1G : Grammar := { states := fun _ => c1St }

/-- The C1 oracle: the end regex matches at 0, the regset at 1. -/
def c1O : Onig :=
  { onigNone with
    search := fun re _ => if re = 1 then some c1Ereg else none
    regsetSearch := fun _ _ => some (0, 1, c1RegM) }

/-- The C1 bottom frame (permanent, carries the start state, no pattern). -/
def c1A : ActiveState := { ActiveState.empty with s := some 0 }

/-- The C1 renderer, at the bottom of the stack (depth 1 = the stack base). -/
def c1R : Renderer := { bytes := [97, 98, 10], offset := 0, stack := [c1A], seq := 0 }

/-- The C1 line (bytes a b newline). -/
def c1L : Line := { scopes := [], lineBegin := 0, lineEnd := 2, endIncludingNewline := 3 }

/-- The search window of the C1 scenario. -/
def c1Args : SearchArgs :=
  { bytes := [97, 98, 10], str := 0, stop := 3, start := 0, range := 3,
    notBeginPosition := false }

/-- C1, counterexample.  The regset search succeeds (rule 0 at offset 1), the
end search succeeds (at offset 0), the regular rule loses (no tie, end
earlier), so the claim says the end pattern is applied AND the current frame
is popped; but the frame here is the one at the render call's stack base
(depth 1, base 1), and the code's stack-underflow guard halts the loop with
the stack depth still 1: no pop happens. -/
theorem c1_counterexample :
    stepIsHalt (dispatchStep c1O c1G 50 1 3 c1R c1L 0 0 0) = true ∧
    stepStackLength (dispatchStep c1O c1G 50 1 3 c1R c1L 0 0 0) = some 1 ∧
    c1R.stack.length = 1 ∧
    (c1O.regsetSearch 0 c1Args).map (fun x => (x.1, x.2.1)) = some (0, 1) ∧
    (c1O.search 1 c1Args).map (fun reg => reg.beg 0) = some 0 ∧
    c1St.applyEndPatternLast = false := by
  decide

/-- Witness for c1_amended: the same scenario, showing the end branch is
selected (conjunct 2 of the theorem, hypotheses discharged concretely). -/
theorem c1_witness :
    dispatchStep c1O c1G (49 + 1) 1 3 c1R c1L 0 0 0 =
      endBranch c1O c1G 49 1 (stackWrite c1R 0 { c1A with endRegex := none })
        c1L c1A c1Ereg 0 0 := by
  have h := c1_amended c1O c1G 49 1 3 c1R c1L 0 0 0 c1A 0 0 1 c1RegM
    (none, some c1Ereg) rfl rfl rfl rfl
  refine h.2.1 ?_ c1Ereg rfl
  rintro (hno | ⟨ereg, heq, hc⟩)
  · cases hno
  · injection heq with heq
    subst heq
    rcases hc with h1 | ⟨h2, _⟩
    · simp [c1Ereg] at h1
    · simp [c1St, c1G] at h2

/-- C2, amended.  With a MATCH rule and the end pattern matching at the same
offset: when applyEndPatternLast is FALSE (the default) the END pattern wins
the tie (the end branch runs, emitting the end captures and popping the frame
when the depth exceeds the stack base); when it is TRUE the MATCH rule wins
(the regular branch runs).  This is the opposite of the claim. -/
theorem c2_amended (O : Onig) (G : Grammar) (fuel stackBase e : Nat) (r : Renderer)
    (line : Line) (offset maxOffset mwp : Nat) (a : ActiveState) (sid : Nat)
    (ep : Pattern) (ereg : Region) (res : Nat) (matchpos : Int) (region : Region)
    (hlast : r.stack.getLast? = some a)
    (hs : a.s = some sid)
    (hep : (G.states sid).endPattern = some ep)
    (hnb : ep.backreferencingPattern = false)
    (hsearch : O.search ep.re
        { bytes := r.bytes, str := line.lineBegin, stop := line.endIncludingNewline,
          start := offset, range := e,
          notBeginPosition := decide (offset > a.innerBegin) } = some ereg)
    (hregset : O.regsetSearch sid
        { bytes := r.bytes, str := line.lineBegin, stop := line.endIncludingNewline,
          start := offset, range := e,
          notBeginPosition := decide (offset > a.innerBegin) } = some (res, matchpos, region))
    (htie : matchpos = ereg.beg 0) :
    ((G.states sid).applyEndPatternLast = false →
      dispatchStep O G (fuel + 1) stackBase e r line offset maxOffset mwp =
        endBranch O G fuel stackBase (stackWrite r (r.stack.length - 1) a) line a ereg
          maxOffset mwp) ∧
    ((G.states sid).applyEndPatternLast = true →
      dispatchStep O G (fuel + 1) stackBase e r line offset maxOffset mwp =
        match (G.states sid).patterns[res]? with
        | none => some (StepOut.halt (stackWrite r (r.stack.length - 1) a) line)
        | some pis => regularBranch O G fuel (stackWrite r (r.stack.length - 1) a)
            line maxOffset mwp pis region) ∧
    (∀ gfuel r' line' r2 line2,
      renderCaptures O G gfuel r' line' ep ereg 0 = some (r2, line2) →
      ∀ ap, a.p = some ap → stackBase < r2.stack.length →
        endBranch O G (gfuel + 1) stackBase r' line' a ereg maxOffset mwp =
          some (StepOut.cont (popStack r2 (r2.stack.length - 1))
            (addScopeRange
              (addScopeRange line2 ap.innerScope a.innerSeq a.innerBegin
                (line2.lineBegin + (ereg.beg 0).toNat))
              ap.outerScope a.outerSeq a.outerBegin
              (line2.lineBegin + (ereg.rend 0).toNat))
            (line2.lineBegin + (ereg.rend 0).toNat) maxOffset mwp)) := by
  have her : (match (G.states sid).endPattern with
      | none => (a.endRegex, (none : Option Region))
      | some ep => backreferencingSearch O r a a.endRegex ep
          { bytes := r.bytes, str := line.lineBegin, stop := line.endIncludingNewline,
            start := offset, range := e,
            notBeginPosition := decide (offset > a.innerBegin) }) =
      (a.endRegex, some ereg) := by
    rw [hep]
    simp only [backreferencingSearch, hnb, Bool.not_false, if_true, hsearch]
  refine ⟨?_, ?_, ?_⟩
  · intro hal
    have hb : regularWinsB (G.states sid).applyEndPatternLast matchpos (some ereg) = false := by
      simp [regularWinsB, hal, htie]
    simp only [dispatchStep, hlast, hs, her, stackWrite_bytes, hregset, hb,
      Bool.false_eq_true, if_false]
    rw [← hs]
  · intro hal
    have hb : regularWinsB (G.states sid).applyEndPatternLast matchpos (some ereg) = true := by
      simp [regularWinsB, hal, htie]
    simp only [dispatchStep, hlast, hs, her, stackWrite_bytes, hregset, hb, if_true]
    rw [← hs]
  · intro gfuel r' line' r2 line2 hrc ap hap hgt
    exact (endBranch_spec O G gfuel stackBase r' line' a ereg maxOffset mwp sid ep r2
      line2 hs hep hrc).2 ap hap hgt

/-- The tie region of the C2 scenario: both the end pattern and the MATCH rule
match at offset 0, one byte long. -/
def c2Reg : Region := { numRegs := 1, beg := fun _ => 0, rend := fun _ => 1 }

/-- The C2 state (state id 1): one MATCH rule and an end pattern that tie. -/
def c2St (al : Bool) : StateData :=
  { whilePattern := none, endPattern := some c1Ep, applyEndPatternLast := al,
    patterns := [{ type := RuleType.MATCH, p := c1Mp, toState := 0 }] }

/-- The empty root state. -/
def c2Root : StateData :=
  { whilePattern := none, endPattern := none, applyEndPatternLast := false, patterns := [] }

/-- The C2 grammar, parameterized by applyEndPatternLast. -/
def c2G (al : Bool) : Grammar := { states := fun i => if i = 1 then c2St al else c2Root }

/-- The C2 oracle: end regex and regset both match at offset 0. -/
def c2O : Onig :=
  { onigNone with
    search := fun re _ => if re = 1 then some c2Reg else none
    regsetSearch := fun sid _ => if sid = 1 then some (0, 0, c2Reg) else none }

/-- The begin pattern carried by the C2 frame (no scopes, so a pop emits no
events). -/
def c2Bp : Pattern :=
  { re := 3, innerScope := 0, outerScope := 0, captures := 1, captureScopes := [0],
    captureStates := [none], backreferencingPattern := false, text := none, len := 0 }

/-- The C2 active frame for state 1. -/
def c2Fr : ActiveState :=
  { ActiveState.empty with s := some 1, p := some c2Bp, outerSeq := 0, innerSeq := 1 }

/-- The C2 renderer: bottom frame plus the state-1 frame. -/
def c2R : Renderer :=
  { bytes := [97, 98, 10], offset := 0,
    stack := [{ ActiveState.empty with s := some 0 }, c2Fr], seq := 2 }

/-- The C2 search window. -/
def c2Args : SearchArgs :=
  { bytes := [97, 98, 10], str := 0, stop := 3, start := 0, range := 3,
    notBeginPosition := false }

/-- C2, counterexample.  MATCH rule and end pattern tie at offset 0 with
applyEndPatternLast = false (the default): the claim says the MATCH rule wins,
which would leave the stack depth at 2; the code instead takes the end branch
and pops the frame (depth 1, a cont outcome). -/
theorem c2_counterexample :
    stepIsHalt (dispatchStep c2O (c2G false) 50 1 3 c2R c1L 0 0 0) = false ∧
    stepStackLength (dispatchStep c2O (c2G false) 50 1 3 c2R c1L 0 0 0) = some 1 ∧
    c2R.stack.length = 2 ∧
    (c2O.regsetSearch 1 c2Args).map (fun x => (x.1, x.2.1)) = some (0, 0) ∧
    (c2O.search 1 c2Args).map (fun reg => reg.beg 0) = some 0 ∧
    (c2St false).applyEndPatternLast = false := by
  decide

/-- Witness for c2_amended: the same tie scenario under both flag values. -/
theorem c2_witness :
    (dispatchStep c2O (c2G false) (49 + 1) 1 3 c2R c1L 0 0 0 =
      endBranch c2O (c2G false) 49 1 (stackWrite c2R 1 c2Fr) c1L c2Fr c2Reg 0 0) ∧
    (dispatchStep c2O (c2G true) (49 + 1) 1 3 c2R c1L 0 0 0 =
      match (c2G true).states 1 |>.patterns[0]? with
      | none => some (StepOut.halt (stackWrite c2R 1 c2Fr) c1L)
      | some pis => regularBranch c2O (c2G true) 49 (stackWrite c2R 1 c2Fr) c1L 0 0
          pis c2Reg) := by
  constructor
  · exact (c2_amended c2O (c2G false) 49 1 3 c2R c1L 0 0 0 c2Fr 1 c1Ep c2Reg 0 0 c2Reg
      rfl rfl rfl rfl rfl rfl rfl).1 rfl
  · exact (c2_amended c2O (c2G true) 49 1 3 c2R c1L 0 0 0 c2Fr 1 c1Ep c2Reg 0 0 c2Reg
      rfl rfl rfl rfl rfl rfl rfl).2.1 rfl

/-- C6, amended.  When a BEGIN rule wins while the stack is already full, the
begin match's capture scopes are still emitted (they are rendered before the
capacity check) and the push is skipped — but the dispatch loop HALTS for the
current line (C: break), rather than continuing as if the push had not
happened; the still-open scopes are then extended to the line end by
renderLine's final loop. -/
theorem c6_amended (O : Onig) (G : Grammar) (fuel : Nat) (r : Renderer) (line : Line)
    (maxOffset mwp : Nat) (pis : PatternInState) (region : Region)
    (r2 : Renderer) (line2 : Line)
    (hb : pis.type = RuleType.BEGIN)
    (hrc : renderCaptures O G fuel r line pis.p region 0 = some (r2, line2))
    (hfull : r2.stack.length = stackCapacity) :
    regularBranch O G (fuel + 1) r line maxOffset mwp pis region =
      some (StepOut.halt r2 line2) := by
  simp only [regularBranch, hrc, hb, if_true, hfull, if_pos]

/-- The capture pattern of the C6 scenario: group 0 scoped with name 5. -/
def c6Cp : Pattern :=
  { re := 4, innerScope := 0, outerScope := 0, captures := 1, captureScopes := [5],
    captureStates := [none], backreferencingPattern := false, text := none, len := 0 }

/-- The C6 BEGIN rule. -/
def c6Pis : PatternInState := { type := RuleType.BEGIN, p := c6Cp, toState := 0 }

/-- The C6 match region: [0, 1). -/
def c6Reg : Region := { numRegs := 1, beg := fun _ => 0, rend := fun _ => 1 }

/-- The C6 grammar (one empty state). -/
def c6G : Grammar := { states := fun _ => c2Root }

/-- A full 256-frame stack. -/
def c6R : Renderer :=
  { bytes := [97, 98, 10], offset := 0,
    stack := List.replicate 256 { ActiveState.empty with s := some 0 }, seq := 0 }

/-- C6, counterexample.  A BEGIN rule wins the dispatch with the stack already
full: the capture scopes ARE emitted (two events appear), no push happens (the
depth stays 256), but the outcome is a HALT of the dispatch loop — rendering
of the line does not continue as the claim says. -/
theorem c6_counterexample :
    stepIsHalt (regularBranch onigNone c6G 50 c6R c1L 0 0 c6Pis c6Reg) = true ∧
    stepScopeCount (regularBranch onigNone c6G 50 c6R c1L 0 0 c6Pis c6Reg) = some 2 ∧
    stepStackLength (regularBranch onigNone c6G 50 c6R c1L 0 0 c6Pis c6Reg) = some 256 ∧
    c6Pis.type = RuleType.BEGIN ∧
    c6R.stack.length = stackCapacity := by
  decide

/-- Witness for c6_amended at the concrete full-stack scenario. -/
theorem c6_witness :
    regularBranch onigNone c6G (5 + 1) c6R c1L 0 0 c6Pis c6Reg =
      some (StepOut.halt { c6R with seq := 1 }
        { c1L with scopes :=
          [{ ty := ScopeTy.SCOPE_BEGIN, name := 5, offset := 0, startOffset := 0,
             endOffset := 1, seq := 0 },
           { ty := ScopeTy.SCOPE_END, name := 5, offset := 1, startOffset := 0,
             endOffset := 1, seq := 0 }] }) := by
  exact c6_amended onigNone c6G 5 c6R c1L 0 0 c6Pis c6Reg { c6R with seq := 1 } _
    rfl rfl (by decide)

/-! ### Scope-emission structure: every event the renderer appends comes from
one successful addScopeRange call (a begin/end pair) -/

/-- One successful addScopeRange call: the scope name, its tie-break seq, and
the unclamped byte range [b, e). -/
structure RangePair where
  name : ScopeName
  seq : Nat
  b : Nat
  e : Nat
deriving DecidableEq

/-- The two events such a call appends, with offsets clamped to [lo, hi]. -/
def pairEvents (lo hi : Nat) (pr : RangePair) : List Scope :=
  [{ ty := ScopeTy.SCOPE_BEGIN, name := pr.name,
     offset := if pr.b < lo then lo else pr.b,
     startOffset := pr.b, endOffset := pr.e, seq := pr.seq },
   { ty := ScopeTy.SCOPE_END, name := pr.name,
     offset := if pr.e > hi then hi else pr.e,
     startOffset := pr.b, endOffset := pr.e, seq := pr.seq }]

/-- The pair is actually emitted: nonzero name and nonempty clamped range (the
negation of addScopeRange's drop condition). -/
def wfPair (lo hi : Nat) (pr : RangePair) : Bool :=
  decide (pr.name ≠ 0) &&
    decide ((if pr.b < lo then lo else pr.b) < (if pr.e > hi then hi else pr.e))

/-- addScopeRange, rephrased through pairEvents/wfPair. -/
lemma addScopeRange_eq (line : Line) (n : ScopeName) (s b e : Nat) :
    addScopeRange line n s b e =
      if wfPair line.lineBegin line.lineEnd ⟨n, s, b, e⟩ then
        { line with scopes := line.scopes ++
            pairEvents line.lineBegin line.lineEnd ⟨n, s, b, e⟩ }
      else line := by
  by_cases hw : wfPair line.lineBegin line.lineEnd ⟨n, s, b, e⟩ = true
  · have hw' := hw
    simp only [wfPair, Bool.and_eq_true, decide_eq_true_eq] at hw'
    rw [if_pos hw]
    simp only [addScopeRange, addScope]
    rw [if_neg (by rintro (h | h); exacts [hw'.1 h, by omega])]
    simp [pairEvents, List.append_assoc]
  · have hw' := hw
    simp only [wfPair, Bool.and_eq_true, decide_eq_true_eq, not_and_or] at hw'
    rw [if_neg hw]
    simp only [addScopeRange]
    rw [if_pos (by rcases hw' with h | h
                   exacts [Or.inl (not_not.mp h), Or.inr (by omega)])]

/-- The render functions extend the line's event list by well-formed pairs
only, and keep its bounds. -/
def EmitsPairs (line line' : Line) : Prop :=
  line'.lineBegin = line.lineBegin ∧ line'.lineEnd = line.lineEnd ∧
  line'.endIncludingNewline = line.endIncludingNewline ∧
  ∃ ps : List RangePair,
    line'.scopes = line.scopes ++ ps.flatMap (pairEvents line.lineBegin line.lineEnd) ∧
    ∀ pr ∈ ps, wfPair line.lineBegin line.lineEnd pr = true

lemma emitsPairs_refl (line : Line) : EmitsPairs line line :=
  ⟨rfl, rfl, rfl, [], by simp, by simp⟩

lemma emitsPairs_trans {l1 l2 l3 : Line} (h12 : EmitsPairs l1 l2)
    (h23 : EmitsPairs l2 l3) : EmitsPairs l1 l3 := by
  obtain ⟨hb1, he1, hn1, ps1, hs1, hw1⟩ := h12
  obtain ⟨hb2, he2, hn2, ps2, hs2, hw2⟩ := h23
  refine ⟨hb2.trans hb1, he2.trans he1, hn2.trans hn1, ps1 ++ ps2, ?_, ?_⟩
  · rw [hs2, hb1, he1, hs1, List.flatMap_append, List.append_assoc]
  · intro pr hpr
    rcases List.mem_append.mp hpr with hm | hm
    · exact hw1 pr hm
    · rw [← hb1, ← he1]
      exact hw2 pr hm

lemma emitsPairs_addScopeRange (line : Line) (n : ScopeName) (s b e : Nat) :
    EmitsPairs line (addScopeRange line n s b e) := by
  rw [addScopeRange_eq]
  split
  · next hw =>
    exact ⟨rfl, rfl, rfl, [⟨n, s, b, e⟩], by simp, by simpa using hw⟩
  · exact emitsPairs_refl line

lemma openGo_emits (r : Renderer) (e : Nat) :
    ∀ n i line, EmitsPairs line (openGo r e n i line) := by
  intro n
  induction n with
  | zero => intro i line; exact emitsPairs_refl line
  | succ n ih =>
    intro i line
    simp only [openGo]
    split
    · cases hp : (r.stack.getD i ActiveState.empty).p with
      | none => exact ih (i + 1) line
      | some ap =>
        exact emitsPairs_trans (emitsPairs_addScopeRange line _ _ _ _)
          (emitsPairs_trans (emitsPairs_addScopeRange _ _ _ _ _) (ih (i + 1) _))
    · exact emitsPairs_refl line

/-- The line carried by a step outcome. -/
def stepLine : StepOut → Line
  | StepOut.halt _ line => line
  | StepOut.cont _ line _ _ _ => line

lemma stepLine_progressOut (line : Line) (mo mwp : Nat) (r : Renderer) (reg : Region) :
    stepLine (progressOut line mo mwp r reg) = line := by
  simp only [progressOut]
  split <;> rfl

/-- Main emission lemma: every function of the render loop only appends
well-formed begin/end pairs to the line and preserves its bounds. -/
lemma emission (O : Onig) (G : Grammar) : ∀ fuel : Nat,
    (∀ r line b e sb r' line',
      renderLine O G fuel r line b e sb = some (r', line') → EmitsPairs line line') ∧
    (∀ e i r line off r' line' off',
      phaseA O G fuel e i r line off = some (r', line', off') → EmitsPairs line line') ∧
    (∀ sb e r line off mo mwp r' line',
      loopGo O G fuel sb e r line off mo mwp = some (r', line') → EmitsPairs line line') ∧
    (∀ sb e r line off mo mwp out,
      dispatchStep O G fuel sb e r line off mo mwp = some out →
      EmitsPairs line (stepLine out)) ∧
    (∀ r line mo mwp pis reg out,
      regularBranch O G fuel r line mo mwp pis reg = some out →
      EmitsPairs line (stepLine out)) ∧
    (∀ sb r line a ereg mo mwp out,
      endBranch O G fuel sb r line a ereg mo mwp = some out →
      EmitsPairs line (stepLine out)) ∧
    (∀ r line p reg i r' line',
      renderCaptures O G fuel r line p reg i = some (r', line') → EmitsPairs line line') := by
  intro fuel
  induction fuel with
  | zero =>
    refine ⟨fun r line b e sb r' line' h => ?_, fun e i r line off r' line' off' h => ?_,
      fun sb e r line off mo mwp r' line' h => ?_, fun sb e r line off mo mwp out h => ?_,
      fun r line mo mwp pis reg out h => ?_, fun sb r line a ereg mo mwp out h => ?_,
      fun r line p reg i r' line' h => ?_⟩ <;>
      simp [renderLine, phaseA, loopGo, dispatchStep, regularBranch, endBranch,
        renderCaptures] at h
  | succ fuel ih =>
    obtain ⟨ihR, ihP, ihL, ihD, ihRB, ihEB, ihC⟩ := ih
    refine ⟨?_, ?_, ?_, ?_, ?_, ?_, ?_⟩
    · -- renderLine
      intro r line b e sb r' line' h
      simp only [renderLine] at h
      split at h
      · cases h
        exact emitsPairs_refl line
      · rcases hpa : phaseA O G fuel e sb r line b with _ | ⟨r1, line1, off1⟩
        · simp only [hpa] at h
          exact Option.noConfusion h
        · simp only [hpa] at h
          rcases hlg : loopGo O G fuel sb e r1 line1 off1 b 0 with _ | ⟨r2, line2⟩
          · simp only [hlg] at h
            exact Option.noConfusion h
          · simp only [hlg] at h
            simp only [Option.some.injEq, Prod.mk.injEq] at h
            obtain ⟨-, hline⟩ := h
            rw [← hline]
            exact emitsPairs_trans (ihP e sb r line b r1 line1 off1 hpa)
              (emitsPairs_trans (ihL sb e r1 line1 off1 b 0 r2 line2 hlg)
                (openGo_emits r2 e _ sb line2))
    · -- phaseA
      intro e i r line off r' line' off' h
      simp only [phaseA] at h
      split at h
      · split at h
        · exact ihP _ _ _ _ _ _ _ _ h
        · split at h
          · exact ihP _ _ _ _ _ _ _ _ h
          · split at h
            · simp only [Option.some.injEq, Prod.mk.injEq] at h
              obtain ⟨-, hline, -⟩ := h
              rw [← hline]
              exact emitsPairs_refl line
            · split at h
              · exact absurd h (by simp)
              · rename_i r3 line3 heq
                exact emitsPairs_trans (ihC _ _ _ _ _ _ _ heq) (ihP _ _ _ _ _ _ _ _ h)
      · simp only [Option.some.injEq, Prod.mk.injEq] at h
        obtain ⟨-, hline, -⟩ := h
        rw [← hline]
        exact emitsPairs_refl line
    · -- loopGo
      intro sb e r line off mo mwp r' line' h
      simp only [loopGo] at h
      split at h
      · split at h
        · exact absurd h (by simp)
        · rename_i r2 line2 heq
          simp only [Option.some.injEq, Prod.mk.injEq] at h
          obtain ⟨-, hline⟩ := h
          rw [← hline]
          have := ihD sb e r line off mo mwp (StepOut.halt r2 line2) heq
          exact this
        · rename_i r2 line2 off2 mo2 mwp2 heq
          exact emitsPairs_trans
            (ihD sb e r line off mo mwp (StepOut.cont r2 line2 off2 mo2 mwp2) heq)
            (ihL _ _ _ _ _ _ _ _ _ h)
      · simp only [Option.some.injEq, Prod.mk.injEq] at h
        obtain ⟨-, hline⟩ := h
        rw [← hline]
        exact emitsPairs_refl line
    · -- dispatchStep
      intro sb e r line off mo mwp out h
      simp only [dispatchStep] at h
      split at h
      · simp only [Option.some.injEq] at h
        rw [← h]
        exact emitsPairs_refl line
      · split at h
        · simp only [Option.some.injEq] at h
          rw [← h]
          exact emitsPairs_refl line
        · split at h
          · split at h
            · split at h
              · simp only [Option.some.injEq] at h
                rw [← h]
                exact emitsPairs_refl line
              · exact ihRB _ _ _ _ _ _ _ h
            · split at h
              · exact ihEB _ _ _ _ _ _ _ _ h
              · simp only [Option.some.injEq] at h
                rw [← h]
                exact emitsPairs_refl line
          · split at h
            · exact ihEB _ _ _ _ _ _ _ _ h
            · simp only [Option.some.injEq] at h
              rw [← h]
              exact emitsPairs_refl line
    · -- regularBranch
      intro r line mo mwp pis reg out h
      simp only [regularBranch] at h
      split at h
      · exact absurd h (by simp)
      · rename_i r2 line2 heq
        split at h
        · split at h
          · simp only [Option.some.injEq] at h
            rw [← h]
            exact ihC _ _ _ _ _ _ _ heq
          · simp only [Option.some.injEq] at h
            rw [← h, stepLine_progressOut]
            exact ihC _ _ _ _ _ _ _ heq
        · simp only [Option.some.injEq] at h
          rw [← h, stepLine_progressOut]
          exact ihC _ _ _ _ _ _ _ heq
    · -- endBranch
      intro sb r line a ereg mo mwp out h
      simp only [endBranch] at h
      split at h
      · simp only [Option.some.injEq] at h
        rw [← h]
        exact emitsPairs_refl line
      · split at h
        · exact absurd h (by simp)
        · rename_i r2 line2 heq
          split at h
          · simp only [Option.some.injEq] at h
            rw [← h]
            exact ihC _ _ _ _ _ _ _ heq
          · split at h
            · simp only [Option.some.injEq] at h
              rw [← h]
              exact ihC _ _ _ _ _ _ _ heq
            · simp only [Option.some.injEq] at h
              rw [← h]
              refine emitsPairs_trans (ihC _ _ _ _ _ _ _ heq) ?_
              exact emitsPairs_trans (emitsPairs_addScopeRange _ _ _ _ _)
                (emitsPairs_addScopeRange _ _ _ _ _)
    · -- renderCaptures
      intro r line p reg i r' line' h
      simp only [renderCaptures] at h
      split at h
      · split at h
        · exact ihC _ _ _ _ _ _ _ h
        · split at h
          · exact emitsPairs_trans (emitsPairs_addScopeRange _ _ _ _ _)
              (ihC _ _ _ _ _ _ _ h)
          · split at h
            · exact ihC _ _ _ _ _ _ _ h
            · split at h
              · exact ihC _ _ _ _ _ _ _ h
              · split at h
                · exact absurd h (by simp)
                · rename_i r3 line3 heq
                  exact emitsPairs_trans (ihR _ _ _ _ _ _ _ heq)
                    (ihC _ _ _ _ _ _ _ h)
      · simp only [Option.some.injEq, Prod.mk.injEq] at h
        obtain ⟨-, hline⟩ := h
        rw [← hline]
        exact emitsPairs_refl line

/-! ### Claim C7: zero-length lines -/

/-- On a zero-length line every pair is dropped: both clamps collapse the
range onto the single point lineBegin. -/
lemma wfPair_degenerate (lo : Nat) (pr : RangePair) : wfPair lo lo pr ≠ true := by
  intro hw
  simp only [wfPair, Bool.and_eq_true, decide_eq_true_eq] at hw
  obtain ⟨-, h⟩ := hw
  revert h
  split <;> split <;> omega

/-- A zero-length line's event list is never extended. -/
lemma emitsPairs_degenerate {line line' : Line} (hz : line.lineEnd = line.lineBegin)
    (h : EmitsPairs line line') : line'.scopes = line.scopes := by
  obtain ⟨-, -, -, ps, hs, hw⟩ := h
  cases ps with
  | nil => simpa using hs
  | cons pr ps =>
    have := hw pr (by simp)
    rw [hz] at this
    exact absurd this (wfPair_degenerate _ _)

/-- C7, amended.  Rendering a zero-length line (lineEnd = lineBegin, as for a
terminator-only line) emits NO scope events at all — even the extensions of
the currently-open frames are dropped by addScopeRange's clamping — while
rules of the current state ARE still searched and can match over the line's
terminator bytes; and at end of input renderNextLine produces no line at all
(so no zero-length EOF line exists). -/
theorem c7_amended (O : Onig) (G : Grammar) (fuel : Nat) (r : Renderer) (line : Line)
    (b e sb : Nat) (r' : Renderer) (line' : Line)
    (hz : line.lineEnd = line.lineBegin)
    (h : renderLine O G fuel r line b e sb = some (r', line')) :
    line'.scopes = line.scopes ∧
    (∀ r2 : Renderer, r2.bytes.length ≤ r2.offset →
      renderNextLine O G fuel r2 = some none) := by
  constructor
  · exact emitsPairs_degenerate hz ((emission O G fuel).1 r line b e sb r' line' h)
  · intro r2 h2
    simp only [renderNextLine]
    rw [if_pos h2]

/-- The pattern of the frame open across the C7 scenario's lines: outer scope
5, inner scope 9. -/
def c7Op : Pattern :=
  { re := 5, innerScope := 9, outerScope := 5, captures := 1, captureScopes := [0],
    captureStates := [none], backreferencingPattern := false, text := none, len := 0 }

/-- The C7 match rule's pattern: group 0 scoped with name 7. -/
def c7Mp : Pattern :=
  { re := 6, innerScope := 0, outerScope := 0, captures := 1, captureScopes := [7],
    captureStates := [none], backreferencingPattern := false, text := none, len := 0 }

/-- The C7 match rule. -/
def c7Pis : PatternInState := { type := RuleType.MATCH, p := c7Mp, toState := 0 }

/-- The C7 root state: nothing to match. -/
def c7Root : StateData :=
  { whilePattern := none, endPattern := none, applyEndPatternLast := false, patterns := [] }

/-- The C7 active state: one MATCH rule, no end or while pattern. -/
def c7St : StateData :=
  { whilePattern := none, endPattern := none, applyEndPatternLast := false,
    patterns := [c7Pis] }

def c7G : Grammar := { states := fun i => if i = 1 then c7St else c7Root }

/-- Oracle for the C7 scenario: state 1's regset matches a line-feed byte at
the search start (consistent with the rule regex being a lone newline). -/
def c7O : Onig :=
  { onigNone with
    regsetSearch := fun sid args =>
      if sid = 1 ∧ args.start + 1 ≤ args.range ∧ args.bytes.getD args.start 0 = 10 then
        some (0, Int.ofNat (args.start - args.str),
          { numRegs := 1, beg := fun _ => Int.ofNat (args.start - args.str),
            rend := fun _ => Int.ofNat (args.start - args.str) + 1 })
      else none }

/-- The permanent bottom frame. -/
def c7Bottom : ActiveState := { ActiveState.empty with s := some 0 }

/-- The frame left open by a BEGIN on the previous line: outer range started
at 0, inner at 1. -/
def c7Frame : ActiveState :=
  { s := some 1, p := some c7Op, beginRegion := none, endRegex := none,
    whileRegex := none, beginOffset := 0, outerBegin := 0, outerSeq := 0,
    innerBegin := 1, innerSeq := 1 }

/-- Input "a\n\n" with the first line already rendered: cursor at 2, the open
frame on the stack, two seqs used. -/
def c7R : Renderer :=
  { bytes := [97, 10, 10], offset := 2, stack := [c7Bottom, c7Frame], seq := 2 }

/-- The zero-length second line: only its terminator remains. -/
def c7Line : Line :=
  { scopes := [], lineBegin := 2, lineEnd := 2, endIncludingNewline := 3 }

/-- C7, counterexample.  Input "a\\n\\n" with a frame (outer scope 5, inner
scope 9) left open from line one: rendering the terminator-only second line
yields NO scope events — the claim's "currently-open scopes extended to the
line's end" are absent — while a rule of the current state DOES match (the
regset finds the newline and its capture is rendered: seq goes from 2 to 3),
contradicting "no rule of the current state is matched". -/
theorem c7_counterexample :
    (renderNextLine c7O c7G 20 c7R).map (Option.map (fun rl =>
      (rl.2.scopes, rl.2.lineBegin, rl.2.lineEnd, rl.1.seq, rl.1.stack.length))) =
      some (some ([], 2, 2, 3, 2)) ∧
    c7R.seq = 2 ∧
    c7Frame.p = some c7Op ∧ c7Op.outerScope = 5 ∧ c7Op.innerScope = 9 ∧
    (c7O.regsetSearch 1 { bytes := c7R.bytes, str := 2, stop := 3, start := 2,
                          range := 3, notBeginPosition := true }).isSome = true := by
  decide

/-- Witness for c7_amended at the concrete zero-length second line of the C7
scenario, and for its end-of-input part at the exhausted renderer. -/
theorem c7_witness :
    ({ scopes := [], lineBegin := 2, lineEnd := 2, endIncludingNewline := 3 } : Line).scopes =
      c7Line.scopes ∧
    renderNextLine c7O c7G 20 { c7R with offset := 3 } = some none := by
  refine ⟨?_, ?_⟩
  · exact (c7_amended c7O c7G 20 { c7R with offset := 3 } c7Line 2 3 1
      { c7R with offset := 3, seq := 3 } _ rfl rfl).1
  · exact (c7_amended c7O c7G 20 { c7R with offset := 3 } c7Line 2 3 1
      { c7R with offset := 3, seq := 3 }
      { scopes := [], lineBegin := 2, lineEnd := 2, endIncludingNewline := 3 } rfl rfl).2
      { c7R with offset := 3 } (by decide)

/-! ### Claim C3: order theory of compareScopes -/

/-- Rank of an event type in the comparator: at equal offsets END sorts before
BEGIN. -/
def scopeTyRank : ScopeTy → Nat
  | ScopeTy.SCOPE_END => 0
  | ScopeTy.SCOPE_BEGIN => 1

/-- The comparator's tie key among events of one type at one offset: BEGIN
events by ascending startOffset, then descending endOffset, then ascending
seq; END events with all three directions flipped (encoded by negation). -/
def scopeTieKey (s : Scope) : Int × Int × Int :=
  match s.ty with
  | ScopeTy.SCOPE_BEGIN => ((s.startOffset : Int), -(s.endOffset : Int), (s.seq : Int))
  | ScopeTy.SCOPE_END => (-(s.startOffset : Int), (s.endOffset : Int), -(s.seq : Int))

/-- The comparator as a lexicographic key: offset, then type rank, then the
per-type tie key. -/
def scopeKey (s : Scope) : Lex (Nat × Lex (Nat × Lex (Int × Lex (Int × Int)))) :=
  toLex (s.offset, toLex (scopeTyRank s.ty,
    toLex ((scopeTieKey s).1, toLex ((scopeTieKey s).2.1, (scopeTieKey s).2.2))))

set_option maxHeartbeats 1000000 in
lemma compareScopes_le_iff (a b : Scope) :
    compareScopes a b ≤ 0 ↔ scopeKey a ≤ scopeKey b := by
  obtain ⟨ta, na, oa, soa, ea, qa⟩ := a
  obtain ⟨tb, nb, ob, sob, eb, qb⟩ := b
  cases ta <;> cases tb <;>
    (try simp [compareScopes, scopeKey, scopeTieKey, scopeTyRank, Prod.Lex.le_iff]) <;>
    (try split_ifs) <;> omega

lemma scopeLeRel_iff (a b : Scope) : scopeLeRel a b ↔ scopeKey a ≤ scopeKey b := by
  rw [← compareScopes_le_iff]
  simp [scopeLeRel, scopeLe]

instance : IsTrans Scope scopeLeRel :=
  ⟨fun a b c hab hbc => (scopeLeRel_iff a c).mpr
    (le_trans ((scopeLeRel_iff a b).mp hab) ((scopeLeRel_iff b c).mp hbc))⟩

instance : IsTotal Scope scopeLeRel :=
  ⟨fun a b => by
    rcases le_total (scopeKey a) (scopeKey b) with h | h
    · exact Or.inl ((scopeLeRel_iff a b).mpr h)
    · exact Or.inr ((scopeLeRel_iff b a).mpr h)⟩

/-- The coarse sort key: twice the offset plus the type rank.  The comparator
order refines it, and within a well-formed pair the BEGIN event's key is
strictly below the END event's. -/
def kappa (s : Scope) : Nat := 2 * s.offset + scopeTyRank s.ty

lemma scopeTyRank_le_one (t : ScopeTy) : scopeTyRank t ≤ 1 := by
  cases t <;> simp [scopeTyRank]

lemma scopeLeRel_kappa {a b : Scope} (h : scopeLeRel a b) : kappa a ≤ kappa b := by
  have hk := (scopeLeRel_iff a b).mp h
  unfold scopeKey at hk
  rw [Prod.Lex.le_iff] at hk
  have ha1 := scopeTyRank_le_one a.ty
  have hb1 := scopeTyRank_le_one b.ty
  rcases hk with h1 | ⟨h1, h2⟩
  · unfold kappa
    omega
  · rw [Prod.Lex.le_iff] at h2
    rcases h2 with h2 | ⟨h2, -⟩ <;> unfold kappa <;> simp only at h1 h2 <;> omega

/-- Is the event a SCOPE_BEGIN? -/
def isBeginEvent (s : Scope) : Bool :=
  match s.ty with
  | ScopeTy.SCOPE_BEGIN => true
  | ScopeTy.SCOPE_END => false

/-- Is the event a SCOPE_END? -/
def isEndEvent (s : Scope) : Bool :=
  match s.ty with
  | ScopeTy.SCOPE_BEGIN => false
  | ScopeTy.SCOPE_END => true

/-- Each pair contributes one BEGIN and one END event. -/
lemma pair_balance (lo hi : Nat) (pr : RangePair) :
    List.countP isBeginEvent (pairEvents lo hi pr) =
      List.countP isEndEvent (pairEvents lo hi pr) := by
  simp [pairEvents, List.countP_cons, isBeginEvent, isEndEvent]

/-- Within a well-formed pair, whenever the END event's coarse key is at most
a threshold, the BEGIN event's is strictly below it. -/
lemma pair_countP_le (lo hi : Nat) (pr : RangePair) (hw : wfPair lo hi pr = true)
    (t : Nat) :
    List.countP (fun s => isEndEvent s && decide (kappa s ≤ t)) (pairEvents lo hi pr) ≤
      List.countP (fun s => isBeginEvent s && decide (kappa s < t))
        (pairEvents lo hi pr) := by
  simp only [wfPair, Bool.and_eq_true, decide_eq_true_eq] at hw
  simp only [pairEvents, List.countP_cons, List.countP_nil, isBeginEvent, isEndEvent,
    kappa, scopeTyRank, Bool.false_and, Bool.true_and, decide_eq_true_eq]
  split_ifs at hw ⊢ <;> omega

lemma flatMap_balance (lo hi : Nat) (ps : List RangePair) :
    List.countP isBeginEvent (ps.flatMap (pairEvents lo hi)) =
      List.countP isEndEvent (ps.flatMap (pairEvents lo hi)) := by
  induction ps with
  | nil => simp
  | cons pr ps ih =>
    rw [List.flatMap_cons, List.countP_append, List.countP_append, ih,
      pair_balance lo hi pr]

lemma flatMap_countP_le (lo hi : Nat) (ps : List RangePair)
    (hwf : ∀ pr ∈ ps, wfPair lo hi pr = true) (t : Nat) :
    List.countP (fun s => isEndEvent s && decide (kappa s ≤ t))
        (ps.flatMap (pairEvents lo hi)) ≤
      List.countP (fun s => isBeginEvent s && decide (kappa s < t))
        (ps.flatMap (pairEvents lo hi)) := by
  induction ps with
  | nil => simp
  | cons pr ps ih =>
    rw [List.flatMap_cons, List.countP_append, List.countP_append]
    have h1 := pair_countP_le lo hi pr (hwf pr (by simp)) t
    have h2 := ih (fun q hq => hwf q (by simp [hq]))
    omega

/-- Prefix property of a sorted event list built from well-formed pairs: every
prefix holds at least as many BEGIN as END events. -/
lemma sorted_pairs_prefix (lo hi : Nat) (ps : List RangePair) (L : List Scope)
    (hperm : L.Perm (ps.flatMap (pairEvents lo hi)))
    (hwf : ∀ pr ∈ ps, wfPair lo hi pr = true)
    (hsort : List.Pairwise scopeLeRel L) (k : Nat) :
    List.countP isEndEvent (L.take k) ≤ List.countP isBeginEvent (L.take k) := by
  rcases hq : L.drop k with _ | ⟨y, q2⟩
  · have hkL : L.take k = L := by
      conv_rhs => rw [← List.take_append_drop k L]
      rw [hq, List.append_nil]
    rw [hkL]
    have hbal : List.countP isBeginEvent L = List.countP isEndEvent L := by
      rw [hperm.countP_eq, hperm.countP_eq]
      exact flatMap_balance lo hi ps
    omega
  · have hsplit : L = L.take k ++ (y :: q2) := by
      conv_lhs => rw [← List.take_append_drop k L]
      rw [hq]
    have hpw := hsort
    rw [hsplit, List.pairwise_append] at hpw
    obtain ⟨-, hq2sorted, hcross⟩ := hpw
    have hple : ∀ x ∈ L.take k, kappa x ≤ kappa y := fun x hx =>
      scopeLeRel_kappa (hcross x hx y (by simp))
    have hqge : ∀ z ∈ y :: q2, ¬(kappa z < kappa y) := by
      intro z hz
      rcases List.mem_cons.mp hz with rfl | hz2
      · omega
      · have := scopeLeRel_kappa (List.rel_of_pairwise_cons hq2sorted hz2)
        omega
    have c1 : List.countP isEndEvent (L.take k) =
        List.countP (fun s => isEndEvent s && decide (kappa s ≤ kappa y)) (L.take k) := by
      refine (List.countP_congr ?_).symm
      intro x hx
      simp [hple x hx]
    have c2 : List.countP (fun s => isEndEvent s && decide (kappa s ≤ kappa y)) L =
        List.countP (fun s => isEndEvent s && decide (kappa s ≤ kappa y)) (L.take k) +
        List.countP (fun s => isEndEvent s && decide (kappa s ≤ kappa y)) (y :: q2) := by
      conv_lhs => rw [hsplit]
      rw [List.countP_append]
    have c3 : List.countP (fun s => isBeginEvent s && decide (kappa s < kappa y)) L =
        List.countP (fun s => isBeginEvent s && decide (kappa s < kappa y)) (L.take k) +
        List.countP (fun s => isBeginEvent s && decide (kappa s < kappa y)) (y :: q2) := by
      conv_lhs => rw [hsplit]
      rw [List.countP_append]
    have c4 : List.countP (fun s => isBeginEvent s && decide (kappa s < kappa y))
        (y :: q2) = 0 := by
      rw [List.countP_eq_zero]
      intro z hz
      simp [hqge z hz]
    have c5 : List.countP (fun s => isEndEvent s && decide (kappa s ≤ kappa y)) L ≤
        List.countP (fun s => isBeginEvent s && decide (kappa s < kappa y)) L := by
      rw [List.Perm.countP_eq _ hperm, List.Perm.countP_eq _ hperm]
      exact flatMap_countP_le lo hi ps hwf (kappa y)
    have c6 : List.countP (fun s => isBeginEvent s && decide (kappa s < kappa y))
        (L.take k) ≤ List.countP isBeginEvent (L.take k) := by
      refine List.countP_mono_left ?_
      intro x hx h
      exact ((Bool.and_eq_true _ _).mp h).1
    omega

/-- C3, amended.  Every rendered line's sorted event list is a permutation of
well-formed begin/end pairs; BEGIN and END counts are equal and every prefix
has at least as many BEGIN as END events.  (The claim's further scan property
— each END pops the BEGIN with the same seq — does NOT hold in general:
crossing capture ranges break it; see the counterexample.) -/
theorem c3_amended (O : Onig) (G : Grammar) (fuel : Nat) (r r' : Renderer)
    (line' : Line)
    (h : renderNextLine O G fuel r = some (some (r', line'))) :
    ∃ ps : List RangePair,
      (∀ pr ∈ ps, wfPair line'.lineBegin line'.lineEnd pr = true) ∧
      line'.scopes.Perm (ps.flatMap (pairEvents line'.lineBegin line'.lineEnd)) ∧
      List.Pairwise scopeLeRel line'.scopes ∧
      List.countP isBeginEvent line'.scopes = List.countP isEndEvent line'.scopes ∧
      (∀ k, List.countP isEndEvent (line'.scopes.take k) ≤
        List.countP isBeginEvent (line'.scopes.take k)) := by
  simp only [renderNextLine] at h
  split at h
  · exact absurd h (by simp)
  · split at h
    · exact absurd h (by simp)
    · rename_i r2 lineR heq
      simp only [Option.some.injEq, Prod.mk.injEq] at h
      obtain ⟨-, hl⟩ := h
      have hem := (emission O G fuel).1 _ _ _ _ _ _ _ heq
      obtain ⟨hb, he, -, ps, hs, hwf⟩ := hem
      dsimp only at hb he hs hwf
      subst hl
      dsimp only
      rw [hb, he, List.nil_append] at *
      refine ⟨ps, hwf, ?_, ?_, ?_, ?_⟩
      · exact (List.perm_insertionSort _ _).trans (List.Perm.of_eq hs)
      · exact List.sorted_insertionSort _ _
      · rw [List.Perm.countP_eq _ ((List.perm_insertionSort _ _).trans
          (List.Perm.of_eq hs)), List.Perm.countP_eq _ ((List.perm_insertionSort _ _).trans
          (List.Perm.of_eq hs))]
        exact flatMap_balance _ _ ps
      · intro k
        exact sorted_pairs_prefix _ _ ps _ ((List.perm_insertionSort _ _).trans
          (List.Perm.of_eq hs)) hwf (List.sorted_insertionSort _ _) k

/-- Modelled from the spec: scan the sorted events with a stack of seqs; a
BEGIN pushes its seq, an END must pop the BEGIN with the same seq, and the
stack must be empty at the end (spec-modelled: this is the claim's well-nesting
property, stated by the spec, not a function of the source). -/
def scanGo : List Nat → List Scope → Bool
  | stack, [] => stack.isEmpty
  | stack, s :: rest =>
    match s.ty with
    | ScopeTy.SCOPE_BEGIN => scanGo (s.seq :: stack) rest
    | ScopeTy.SCOPE_END =>
      match stack with
      | [] => false
      | t :: stack2 => decide (t = s.seq) && scanGo stack2 rest

/-- Modelled from the spec: the whole event list scans without mismatch. -/
def scanWellNested (events : List Scope) : Bool := scanGo [] events

/-- The C3 rule's pattern, with crossing capture ranges scoped 6 and 7 (as a
regex like a lookahead produces: group 1 = [1,3) inside the lookahead, group
2 = [0,2) consumed). -/
def c3Mp : Pattern :=
  { re := 7, innerScope := 0, outerScope := 0, captures := 3,
    captureScopes := [0, 6, 7], captureStates := [none, none, none],
    backreferencingPattern := false, text := none, len := 0 }

/-- The C3 MATCH rule. -/
def c3Pis : PatternInState := { type := RuleType.MATCH, p := c3Mp, toState := 0 }

/-- The C3 state: just that rule. -/
def c3St : StateData :=
  { whilePattern := none, endPattern := none, applyEndPatternLast := false,
    patterns := [c3Pis] }

def c3G : Grammar := { states := fun _ => c3St }

/-- The crossing match region: whole match and group 2 cover [0,2), group 1
covers [1,3). -/
def c3Reg : Region :=
  { numRegs := 3, beg := fun i => if i = 1 then 1 else 0,
    rend := fun i => if i = 1 then 3 else 2 }

/-- Oracle for C3: the regset of state 0 matches at the line start only (as
the regex (?=.(..))(..) does on "abcd\n": at positions 1-4 the dot or the
groups would have to cross the newline). -/
def c3O : Onig :=
  { onigNone with
    regsetSearch := fun sid args =>
      if sid = 0 ∧ args.start = 0 ∧ args.bytes.getD 0 0 = 97 then
        some (0, 0, c3Reg)
      else none }

/-- Fresh renderer over "abcd\n". -/
def c3R : Renderer := createRenderer [97, 98, 99, 100, 10] 0

/-- The rendered, sorted event list of the C3 scenario's single line. -/
def c3Line : Line :=
  { scopes :=
      [{ ty := ScopeTy.SCOPE_BEGIN, name := 7, offset := 0, startOffset := 0,
         endOffset := 2, seq := 1 },
       { ty := ScopeTy.SCOPE_BEGIN, name := 6, offset := 1, startOffset := 1,
         endOffset := 3, seq := 0 },
       { ty := ScopeTy.SCOPE_END, name := 7, offset := 2, startOffset := 0,
         endOffset := 2, seq := 1 },
       { ty := ScopeTy.SCOPE_END, name := 6, offset := 3, startOffset := 1,
         endOffset := 3, seq := 0 }],
    lineBegin := 0, lineEnd := 4, endIncludingNewline := 5 }

/-- C3, counterexample.  On "abcd\n" with one rule whose captures cross
([1,3) scoped 6 with seq 0, [0,2) scoped 7 with seq 1), the sorted line is
B7 B6 E7 E6: balance and the prefix property hold (2 BEGIN, 2 END), but the
stack scan fails — the first END (seq 1) faces the BEGIN with seq 0 on top —
refuting the claim's well-nesting conjunct. -/
theorem c3_counterexample :
    (renderNextLine c3O c3G 20 c3R).map (Option.map (fun rl =>
      (rl.2.scopes, scanWellNested rl.2.scopes,
        List.countP isBeginEvent rl.2.scopes, List.countP isEndEvent rl.2.scopes))) =
      some (some (c3Line.scopes, false, 2, 2)) := by
  decide

/-- The renderer after the C3 line. -/
def c3OutR : Renderer :=
  { bytes := [97, 98, 99, 100, 10], offset := 5,
    stack := [{ ActiveState.empty with s := some 0 }], seq := 2 }

/-- Witness for c3_amended at the C3 scenario's concrete run. -/
theorem c3_witness :
    ∃ ps : List RangePair,
      (∀ pr ∈ ps, wfPair c3Line.lineBegin c3Line.lineEnd pr = true) ∧
      c3Line.scopes.Perm (ps.flatMap (pairEvents c3Line.lineBegin c3Line.lineEnd)) ∧
      List.Pairwise scopeLeRel c3Line.scopes ∧
      List.countP isBeginEvent c3Line.scopes = List.countP isEndEvent c3Line.scopes ∧
      (∀ k, List.countP isEndEvent (c3Line.scopes.take k) ≤
        List.countP isBeginEvent (c3Line.scopes.take k)) :=
  c3_amended c3O c3G 20 c3R c3OutR c3Line rfl

/-! ### Claim C8: the no-progress guard and termination -/

/-- The renderer carried by a step outcome. -/
def stepRend : StepOut → Renderer
  | StepOut.halt r _ => r
  | StepOut.cont r _ _ _ _ => r

/-- More fuel never changes a result that was already reached: all render
functions are monotone in the fuel. -/
lemma renderMono (O : Onig) (G : Grammar) : ∀ fuel : Nat,
    (∀ fuel' r line b e sb v, fuel ≤ fuel' →
      renderLine O G fuel r line b e sb = some v →
      renderLine O G fuel' r line b e sb = some v) ∧
    (∀ fuel' e i r line off v, fuel ≤ fuel' →
      phaseA O G fuel e i r line off = some v →
      phaseA O G fuel' e i r line off = some v) ∧
    (∀ fuel' sb e r line off mo mwp v, fuel ≤ fuel' →
      loopGo O G fuel sb e r line off mo mwp = some v →
      loopGo O G fuel' sb e r line off mo mwp = some v) ∧
    (∀ fuel' sb e r line off mo mwp v, fuel ≤ fuel' →
      dispatchStep O G fuel sb e r line off mo mwp = some v →
      dispatchStep O G fuel' sb e r line off mo mwp = some v) ∧
    (∀ fuel' r line mo mwp pis reg v, fuel ≤ fuel' →
      regularBranch O G fuel r line mo mwp pis reg = some v →
      regularBranch O G fuel' r line mo mwp pis reg = some v) ∧
    (∀ fuel' sb r line a ereg mo mwp v, fuel ≤ fuel' →
      endBranch O G fuel sb r line a ereg mo mwp = some v →
      endBranch O G fuel' sb r line a ereg mo mwp = some v) ∧
    (∀ fuel' r line p reg i v, fuel ≤ fuel' →
      renderCaptures O G fuel r line p reg i = some v →
      renderCaptures O G fuel' r line p reg i = some v) := by
  intro fuel
  induction fuel with
  | zero =>
    refine ⟨fun fuel' r line b e sb v hle h => ?_,
      fun fuel' e i r line off v hle h => ?_,
      fun fuel' sb e r line off mo mwp v hle h => ?_,
      fun fuel' sb e r line off mo mwp v hle h => ?_,
      fun fuel' r line mo mwp pis reg v hle h => ?_,
      fun fuel' sb r line a ereg mo mwp v hle h => ?_,
      fun fuel' r line p reg i v hle h => ?_⟩ <;>
      simp [renderLine, phaseA, loopGo, dispatchStep, regularBranch, endBranch,
        renderCaptures] at h
  | succ fuel ih =>
    obtain ⟨ihR, ihP, ihL, ihD, ihRB, ihEB, ihC⟩ := ih
    refine ⟨?_, ?_, ?_, ?_, ?_, ?_, ?_⟩
    · -- renderLine
      intro fuel' r line b e sb v hle h
      obtain ⟨fuel2, rfl⟩ : ∃ k, fuel' = k + 1 := ⟨fuel' - 1, by omega⟩
      have hle2 : fuel ≤ fuel2 := by omega
      simp only [renderLine] at h ⊢
      by_cases hbe : b = e
      · rw [if_pos hbe] at h ⊢
        exact h
      · rw [if_neg hbe] at h ⊢
        rcases hpa : phaseA O G fuel e sb r line b with _ | ⟨r1, line1, off1⟩
        · simp only [hpa] at h
          exact Option.noConfusion h
        · simp only [hpa] at h
          simp only [ihP fuel2 e sb r line b _ hle2 hpa]
          rcases hlg : loopGo O G fuel sb e r1 line1 off1 b 0 with _ | ⟨r2, line2⟩
          · simp only [hlg] at h
            exact Option.noConfusion h
          · simp only [hlg] at h
            simp only [ihL fuel2 sb e r1 line1 off1 b 0 _ hle2 hlg]
            exact h
    · -- phaseA
      intro fuel' e i r line off v hle h
      obtain ⟨fuel2, rfl⟩ : ∃ k, fuel' = k + 1 := ⟨fuel' - 1, by omega⟩
      have hle2 : fuel ≤ fuel2 := by omega
      simp only [phaseA] at h ⊢
      split at h
      · rw [dif_pos (by assumption)]
        split at h
        · rename_i hs
          try simp only [hs] at h ⊢
          exact ihP fuel2 _ _ _ _ _ _ hle2 h
        · rename_i sid hs
          try simp only [hs] at h ⊢
          split at h
          · rename_i hwp
            try simp only [hwp] at h ⊢
            exact ihP fuel2 _ _ _ _ _ _ hle2 h
          · rename_i p hwp
            try simp only [hwp] at h ⊢
            split at h
            · rename_i hc2
              try simp only [hc2] at h ⊢
              exact h
            · rename_i reg hc2
              try simp only [hc2] at h ⊢
              split at h
              · exact Option.noConfusion h
              · rename_i r3 line3 hrc
                simp only [ihC fuel2 _ _ _ _ _ _ hle2 hrc]
                exact ihP fuel2 _ _ _ _ _ _ hle2 h
      · rw [dif_neg (by assumption)]
        exact h
    · -- loopGo
      intro fuel' sb e r line off mo mwp v hle h
      obtain ⟨fuel2, rfl⟩ : ∃ k, fuel' = k + 1 := ⟨fuel' - 1, by omega⟩
      have hle2 : fuel ≤ fuel2 := by omega
      simp only [loopGo] at h ⊢
      split at h
      · rw [if_pos (by assumption)]
        split at h
        · exact Option.noConfusion h
        · rename_i r2 line2 hd
          simp only [ihD fuel2 _ _ _ _ _ _ _ _ hle2 hd]
          exact h
        · rename_i r2 line2 off2 mo2 mwp2 hd
          simp only [ihD fuel2 _ _ _ _ _ _ _ _ hle2 hd]
          exact ihL fuel2 _ _ _ _ _ _ _ _ hle2 h
      · rw [if_neg (by assumption)]
        exact h
    · -- dispatchStep
      intro fuel' sb e r line off mo mwp v hle h
      obtain ⟨fuel2, rfl⟩ : ∃ k, fuel' = k + 1 := ⟨fuel' - 1, by omega⟩
      have hle2 : fuel ≤ fuel2 := by omega
      simp only [dispatchStep] at h ⊢
      split at h
      · rename_i hlast
        try simp only [hlast] at h ⊢
        exact h
      · rename_i a hlast
        try simp only [hlast] at h ⊢
        split at h
        · rename_i hs
          try simp only [hs] at h ⊢
          exact h
        · rename_i sid hs
          try simp only [hs] at h ⊢
          split at h
          · rename_i res mp region hreg
            try simp only [hreg] at h ⊢
            split at h
            · rename_i hwin
              rw [if_pos hwin]
              split at h
              · rename_i hpat
                try simp only [hpat] at h ⊢
                exact h
              · rename_i pis hpat
                try simp only [hpat] at h ⊢
                exact ihRB fuel2 _ _ _ _ _ _ _ hle2 h
            · rename_i hwin
              rw [if_neg hwin]
              split at h
              · rename_i ereg hend
                try simp only [hend] at h ⊢
                exact ihEB fuel2 _ _ _ _ _ _ _ _ hle2 h
              · rename_i hend
                try simp only [hend] at h ⊢
                exact h
          · rename_i hreg
            try simp only [hreg] at h ⊢
            split at h
            · rename_i ereg hend
              try simp only [hend] at h ⊢
              exact ihEB fuel2 _ _ _ _ _ _ _ _ hle2 h
            · rename_i hend
              try simp only [hend] at h ⊢
              exact h
    · -- regularBranch
      intro fuel' r line mo mwp pis reg v hle h
      obtain ⟨fuel2, rfl⟩ : ∃ k, fuel' = k + 1 := ⟨fuel' - 1, by omega⟩
      have hle2 : fuel ≤ fuel2 := by omega
      simp only [regularBranch] at h ⊢
      split at h
      · exact Option.noConfusion h
      · rename_i r2 line2 hrc
        simp only [ihC fuel2 _ _ _ _ _ _ hle2 hrc]
        exact h
    · -- endBranch
      intro fuel' sb r line a ereg mo mwp v hle h
      obtain ⟨fuel2, rfl⟩ : ∃ k, fuel' = k + 1 := ⟨fuel' - 1, by omega⟩
      have hle2 : fuel ≤ fuel2 := by omega
      simp only [endBranch] at h ⊢
      split at h
      · rename_i hep
        try simp only [hep] at h ⊢
        exact h
      · rename_i ep hep
        try simp only [hep] at h ⊢
        split at h
        · exact Option.noConfusion h
        · rename_i r2 line2 hrc
          simp only [ihC fuel2 _ _ _ _ _ _ hle2 hrc]
          exact h
    · -- renderCaptures
      intro fuel' r line p reg i v hle h
      obtain ⟨fuel2, rfl⟩ : ∃ k, fuel' = k + 1 := ⟨fuel' - 1, by omega⟩
      have hle2 : fuel ≤ fuel2 := by omega
      simp only [renderCaptures] at h ⊢
      split at h
      · rw [if_pos (by assumption)]
        split at h
        · rw [if_pos (by assumption)]
          exact ihC fuel2 _ _ _ _ _ _ hle2 h
        · rw [if_neg (by assumption)]
          split at h
          · rw [if_pos (by assumption)]
            exact ihC fuel2 _ _ _ _ _ _ hle2 h
          · rw [if_neg (by assumption)]
            split at h
            · rename_i hcs
              try simp only [hcs] at h ⊢
              exact ihC fuel2 _ _ _ _ _ _ hle2 h
            · rename_i sid hcs
              try simp only [hcs] at h ⊢
              split at h
              · rw [if_pos (by assumption)]
                exact ihC fuel2 _ _ _ _ _ _ hle2 h
              · rw [if_neg (by assumption)]
                split at h
                · exact Option.noConfusion h
                · rename_i r3 line3 hrl
                  simp only [ihR fuel2 _ _ _ _ _ _ hle2 hrl]
                  exact ihC fuel2 _ _ _ _ _ _ hle2 h
      · rw [if_neg (by assumption)]
        exact h

@[simp] lemma stackWrite_length (r : Renderer) (i : Nat) (a : ActiveState) :
    (stackWrite r i a).stack.length = r.stack.length := by
  simp [stackWrite]

@[simp] lemma popStack_length (r : Renderer) (d : Nat) :
    (popStack r d).stack.length = min d r.stack.length := by
  simp [popStack]

lemma stepRend_progressOut (line : Line) (mo mwp : Nat) (r : Renderer) (reg : Region) :
    stepRend (progressOut line mo mwp r reg) = r := by
  simp only [progressOut]
  split <;> rfl

/-- Stack-depth invariants: within a render call the depth never drops below
the call's stack base and never exceeds the capacity; renderCaptures restores
the depth exactly. -/
lemma stackLen (O : Onig) (G : Grammar) : ∀ fuel : Nat,
    (∀ r line b e sb r' line',
      renderLine O G fuel r line b e sb = some (r', line') →
      sb ≤ r.stack.length → r.stack.length ≤ 256 →
      sb ≤ r'.stack.length ∧ r'.stack.length ≤ 256) ∧
    (∀ e i r line off r' line' off',
      phaseA O G fuel e i r line off = some (r', line', off') →
      ∀ t, t ≤ i → t ≤ r.stack.length → r.stack.length ≤ 256 →
      t ≤ r'.stack.length ∧ r'.stack.length ≤ 256) ∧
    (∀ sb e r line off mo mwp r' line',
      loopGo O G fuel sb e r line off mo mwp = some (r', line') →
      sb ≤ r.stack.length → r.stack.length ≤ 256 →
      sb ≤ r'.stack.length ∧ r'.stack.length ≤ 256) ∧
    (∀ sb e r line off mo mwp out,
      dispatchStep O G fuel sb e r line off mo mwp = some out →
      sb ≤ r.stack.length → r.stack.length ≤ 256 →
      sb ≤ (stepRend out).stack.length ∧ (stepRend out).stack.length ≤ 256) ∧
    (∀ r line mo mwp pis reg out,
      regularBranch O G fuel r line mo mwp pis reg = some out →
      r.stack.length ≤ 256 →
      r.stack.length ≤ (stepRend out).stack.length ∧ (stepRend out).stack.length ≤ 256) ∧
    (∀ sb r line a ereg mo mwp out,
      endBranch O G fuel sb r line a ereg mo mwp = some out →
      sb ≤ r.stack.length → r.stack.length ≤ 256 →
      sb ≤ (stepRend out).stack.length ∧ (stepRend out).stack.length ≤ 256) ∧
    (∀ r line p reg i r' line',
      renderCaptures O G fuel r line p reg i = some (r', line') →
      r.stack.length ≤ 256 → r'.stack.length = r.stack.length) := by
  intro fuel
  induction fuel with
  | zero =>
    refine ⟨fun r line b e sb r' line' h => ?_, fun e i r line off r' line' off' h => ?_,
      fun sb e r line off mo mwp r' line' h => ?_, fun sb e r line off mo mwp out h => ?_,
      fun r line mo mwp pis reg out h => ?_, fun sb r line a ereg mo mwp out h => ?_,
      fun r line p reg i r' line' h => ?_⟩ <;>
      simp [renderLine, phaseA, loopGo, dispatchStep, regularBranch, endBranch,
        renderCaptures] at h
  | succ fuel ih =>
    obtain ⟨ihR, ihP, ihL, ihD, ihRB, ihEB, ihC⟩ := ih
    refine ⟨?_, ?_, ?_, ?_, ?_, ?_, ?_⟩
    · -- renderLine
      intro r line b e sb r' line' h hsb hcap
      simp only [renderLine] at h
      split at h
      · cases h
        exact ⟨hsb, hcap⟩
      · rcases hpa : phaseA O G fuel e sb r line b with _ | ⟨r1, line1, off1⟩
        · simp only [hpa] at h
          exact Option.noConfusion h
        · simp only [hpa] at h
          have h1 := ihP e sb r line b r1 line1 off1 hpa sb (Nat.le_refl sb) hsb hcap
          rcases hlg : loopGo O G fuel sb e r1 line1 off1 b 0 with _ | ⟨r2, line2⟩
          · simp only [hlg] at h
            exact Option.noConfusion h
          · simp only [hlg] at h
            simp only [Option.some.injEq, Prod.mk.injEq] at h
            obtain ⟨hr, -⟩ := h
            rw [← hr]
            exact ihL sb e r1 line1 off1 b 0 r2 line2 hlg h1.1 h1.2
    · -- phaseA
      intro e i r line off r' line' off' h t hti htr hcap
      simp only [phaseA] at h
      split at h
      · rename_i hlt
        split at h
        · exact ihP e (i + 1) r line off r' line' off' h t (by omega) htr hcap
        · rename_i sid hs
          split at h
          · exact ihP e (i + 1) r line off r' line' off' h t (by omega) htr hcap
          · rename_i p hwp
            split at h
            · rename_i hc2
              simp only [Option.some.injEq, Prod.mk.injEq] at h
              obtain ⟨hr, -, -⟩ := h
              rw [← hr]
              simp only [popStack_length, stackWrite_length]
              omega
            · rename_i reg hc2
              split at h
              · exact Option.noConfusion h
              · rename_i r3 line3 hrc
                have h3 := ihC _ _ _ _ _ _ _ hrc (by simpa using hcap)
                simp only [stackWrite_length] at h3
                have := ihP e (i + 1) (stackWrite r3 i _) line3 _ r' line' off' h t
                  (by omega) (by simp [h3]; omega) (by simp [h3]; omega)
                exact this
      · simp only [Option.some.injEq, Prod.mk.injEq] at h
        obtain ⟨hr, -, -⟩ := h
        rw [← hr]
        exact ⟨htr, hcap⟩
    · -- loopGo
      intro sb e r line off mo mwp r' line' h hsb hcap
      simp only [loopGo] at h
      split at h
      · split at h
        · exact Option.noConfusion h
        · rename_i r2 line2 hd
          simp only [Option.some.injEq, Prod.mk.injEq] at h
          obtain ⟨hr, -⟩ := h
          rw [← hr]
          exact ihD sb e r line off mo mwp (StepOut.halt r2 line2) hd hsb hcap
        · rename_i r2 line2 off2 mo2 mwp2 hd
          have h2 := ihD sb e r line off mo mwp (StepOut.cont r2 line2 off2 mo2 mwp2) hd hsb hcap
          exact ihL sb e r2 line2 off2 mo2 mwp2 r' line' h h2.1 h2.2
      · simp only [Option.some.injEq, Prod.mk.injEq] at h
        obtain ⟨hr, -⟩ := h
        rw [← hr]
        exact ⟨hsb, hcap⟩
    · -- dispatchStep
      intro sb e r line off mo mwp out h hsb hcap
      simp only [dispatchStep] at h
      split at h
      · simp only [Option.some.injEq] at h
        rw [← h]
        exact ⟨hsb, hcap⟩
      · rename_i a hlast
        split at h
        · simp only [Option.some.injEq] at h
          rw [← h]
          exact ⟨hsb, hcap⟩
        · rename_i sid hs
          split at h
          · rename_i res mp region hreg
            split at h
            · split at h
              · simp only [Option.some.injEq] at h
                rw [← h]
                simp only [stepRend, stackWrite_length]
                exact ⟨hsb, hcap⟩
              · rename_i pis hpat
                have := ihRB _ _ _ _ _ _ _ h (by simpa using hcap)
                simp only [stackWrite_length] at this
                exact ⟨by omega, this.2⟩
            · split at h
              · rename_i ereg hend
                have := ihEB sb _ _ _ _ _ _ _ h (by simpa using hsb) (by simpa using hcap)
                exact this
              · simp only [Option.some.injEq] at h
                rw [← h]
                simp only [stepRend, stackWrite_length]
                exact ⟨hsb, hcap⟩
          · split at h
            · rename_i ereg hend
              exact ihEB sb _ _ _ _ _ _ _ h (by simpa using hsb) (by simpa using hcap)
            · simp only [Option.some.injEq] at h
              rw [← h]
              simp only [stepRend, stackWrite_length]
              exact ⟨hsb, hcap⟩
    · -- regularBranch
      intro r line mo mwp pis reg out h hcap
      simp only [regularBranch] at h
      split at h
      · exact Option.noConfusion h
      · rename_i r2 line2 hrc
        have h2 := ihC _ _ _ _ _ _ _ hrc hcap
        split at h
        · split at h
          · simp only [Option.some.injEq] at h
            rw [← h]
            simp only [stepRend]
            omega
          · simp only [Option.some.injEq] at h
            rw [← h, stepRend_progressOut]
            simp only [List.length_append, List.length_cons, List.length_nil]
            rename_i hne
            have hlt2 : r2.stack.length < 256 :=
              Nat.lt_of_le_of_ne (by omega) (by simpa [stackCapacity] using hne)
            omega
        · simp only [Option.some.injEq] at h
          rw [← h, stepRend_progressOut]
          omega
    · -- endBranch
      intro sb r line a ereg mo mwp out h hsb hcap
      simp only [endBranch] at h
      split at h
      · simp only [Option.some.injEq] at h
        rw [← h]
        exact ⟨hsb, hcap⟩
      · rename_i ep hep
        split at h
        · exact Option.noConfusion h
        · rename_i r2 line2 hrc
          have h2 := ihC _ _ _ _ _ _ _ hrc hcap
          split at h
          · simp only [Option.some.injEq] at h
            rw [← h]
            simp only [stepRend]
            omega
          · split at h
            · simp only [Option.some.injEq] at h
              rw [← h]
              simp only [stepRend]
              omega
            · simp only [Option.some.injEq] at h
              rw [← h]
              simp only [stepRend, popStack_length]
              rename_i hgt
              omega
    · -- renderCaptures
      intro r line p reg i r' line' h hcap
      simp only [renderCaptures] at h
      split at h
      · split at h
        · exact ihC _ _ _ _ _ _ _ h hcap
        · split at h
          · have := ihC _ _ _ _ _ _ _ h (by simpa using hcap)
            simpa using this
          · split at h
            · exact ihC _ _ _ _ _ _ _ h hcap
            · rename_i sid hcs
              split at h
              · exact ihC _ _ _ _ _ _ _ h hcap
              · rename_i hne
                split at h
                · exact Option.noConfusion h
                · rename_i r3 line3 hrl
                  have hlt : r.stack.length < 256 :=
                    Nat.lt_of_le_of_ne hcap (by simpa [stackCapacity] using hne)
                  have h3 := ihR _ _ _ _ _ _ _ hrl (Nat.le_refl _)
                    (by simp only [List.length_append, List.length_cons,
                          List.length_nil]
                        omega)
                  have h4 := ihC _ _ _ _ _ _ _ h
                    (by simp only [popStack_length]; omega)
                  simp only [popStack_length] at h4
                  simp only [List.length_append, List.length_cons, List.length_nil] at h3
                  omega
      · simp only [Option.some.injEq, Prod.mk.injEq] at h
        obtain ⟨hr, -⟩ := h
        rw [← hr]

/-- The one soundness property of the engine that termination rests on: a
regset match lies within the searched window, so the match end (relative to
the subject start str) stays at or before range. -/
def ValidOnig (O : Onig) : Prop :=
  ∀ sid args res mp reg, O.regsetSearch sid args = some (res, mp, reg) →
    args.str + (reg.rend 0).toNat ≤ args.range

/-- One regular-rule step either halts the loop or continues at the match
end, resetting the counter on progress past maxOffset and incrementing it
otherwise. -/
lemma regularBranch_classify (O : Onig) (G : Grammar) (fuel : Nat) (r : Renderer)
    (line : Line) (mo mwp : Nat) (pis : PatternInState) (reg : Region) (out : StepOut)
    (h : regularBranch O G fuel r line mo mwp pis reg = some out) :
    (∃ rh lineh, out = StepOut.halt rh lineh) ∨
    (∃ rc linec,
      (line.lineBegin + (reg.rend 0).toNat > mo ∧
        out = StepOut.cont rc linec (line.lineBegin + (reg.rend 0).toNat)
          (line.lineBegin + (reg.rend 0).toNat) 0) ∨
      (line.lineBegin + (reg.rend 0).toNat ≤ mo ∧
        out = StepOut.cont rc linec (line.lineBegin + (reg.rend 0).toNat) mo (mwp + 1))) := by
  cases fuel with
  | zero => simp [regularBranch] at h
  | succ fuel =>
    simp only [regularBranch] at h
    split at h
    · exact Option.noConfusion h
    · rename_i r2 line2 hrc
      have hlb : line2.lineBegin = line.lineBegin :=
        ((emission O G fuel).2.2.2.2.2.2 _ _ _ _ _ _ _ hrc).1
      split at h
      · split at h
        · simp only [Option.some.injEq] at h
          exact Or.inl ⟨r2, line2, h.symm⟩
        · simp only [Option.some.injEq] at h
          rw [← h]
          simp only [progressOut, hlb]
          split
          · exact Or.inr ⟨_, _, Or.inl ⟨by omega, rfl⟩⟩
          · exact Or.inr ⟨_, _, Or.inr ⟨by omega, rfl⟩⟩
      · simp only [Option.some.injEq] at h
        rw [← h]
        simp only [progressOut, hlb]
        split
        · exact Or.inr ⟨_, _, Or.inl ⟨by omega, rfl⟩⟩
        · exact Or.inr ⟨_, _, Or.inr ⟨by omega, rfl⟩⟩

/-- One end-pattern step either halts the loop or pops: it continues with the
same maxOffset and counter and a strictly smaller stack. -/
lemma endBranch_classify (O : Onig) (G : Grammar) (fuel sb : Nat) (r : Renderer)
    (line : Line) (a : ActiveState) (ereg : Region) (mo mwp : Nat) (out : StepOut)
    (hcap : r.stack.length ≤ 256)
    (h : endBranch O G fuel sb r line a ereg mo mwp = some out) :
    (∃ rh lineh, out = StepOut.halt rh lineh) ∨
    (∃ rc linec offc, out = StepOut.cont rc linec offc mo mwp ∧
      rc.stack.length < r.stack.length) := by
  cases fuel with
  | zero => simp [endBranch] at h
  | succ fuel =>
    simp only [endBranch] at h
    split at h
    · simp only [Option.some.injEq] at h
      exact Or.inl ⟨r, line, h.symm⟩
    · rename_i ep hep
      split at h
      · exact Option.noConfusion h
      · rename_i r2 line2 hrc
        have h2 : r2.stack.length = r.stack.length :=
          (stackLen O G fuel).2.2.2.2.2.2 _ _ _ _ _ _ _ hrc hcap
        split at h
        · simp only [Option.some.injEq] at h
          exact Or.inl ⟨r2, line2, h.symm⟩
        · split at h
          · simp only [Option.some.injEq] at h
            exact Or.inl ⟨r2, line2, h.symm⟩
          · rename_i hgt ap hap
            simp only [Option.some.injEq] at h
            refine Or.inr ⟨_, _, _, h.symm, ?_⟩
            simp only [popStack_length]
            omega

/-- One dispatch step, classified for the loop measure: it halts, or makes
progress (maxOffset strictly grows but stays at most e, counter reset), or
is a non-advancing match (counter incremented), or pops (stack shrinks,
counter and maxOffset unchanged). -/
lemma dispatchStep_classify (O : Onig) (G : Grammar) (fuel sb e : Nat) (r : Renderer)
    (line : Line) (off mo mwp : Nat) (out : StepOut)
    (hV : ValidOnig O)
    (hcap : r.stack.length ≤ 256)
    (h : dispatchStep O G fuel sb e r line off mo mwp = some out) :
    (∃ rh lineh, out = StepOut.halt rh lineh) ∨
    (∃ rc linec offc,
      (∃ mo2, mo < mo2 ∧ mo2 ≤ e ∧ out = StepOut.cont rc linec offc mo2 0) ∨
      out = StepOut.cont rc linec offc mo (mwp + 1) ∨
      (out = StepOut.cont rc linec offc mo mwp ∧ rc.stack.length < r.stack.length)) := by
  cases fuel with
  | zero => simp [dispatchStep] at h
  | succ fuel =>
    simp only [dispatchStep] at h
    split at h
    · simp only [Option.some.injEq] at h
      exact Or.inl ⟨r, line, h.symm⟩
    · rename_i a hlast
      split at h
      · simp only [Option.some.injEq] at h
        exact Or.inl ⟨r, line, h.symm⟩
      · rename_i sid hs
        split at h
        · rename_i res mp region hreg
          split at h
          · split at h
            · simp only [Option.some.injEq] at h
              exact Or.inl ⟨_, line, h.symm⟩
            · rename_i pis hpat
              rcases regularBranch_classify O G fuel _ _ _ _ _ _ _ h with
                ⟨rh, lineh, rfl⟩ | ⟨rc, linec, hc⟩
              · exact Or.inl ⟨rh, lineh, rfl⟩
              · have hend := hV sid _ _ _ _ hreg
                simp only at hend
                rcases hc with ⟨hgt, rfl⟩ | ⟨hle, rfl⟩
                · exact Or.inr ⟨rc, linec, _, Or.inl ⟨_, hgt, hend, rfl⟩⟩
                · exact Or.inr ⟨rc, linec, _, Or.inr (Or.inl rfl)⟩
          · split at h
            · rename_i ereg hend2
              rcases endBranch_classify O G fuel sb _ _ _ _ _ _ _
                  (by simpa using hcap) h with
                ⟨rh, lineh, rfl⟩ | ⟨rc, linec, offc, rfl, hlt⟩
              · exact Or.inl ⟨rh, lineh, rfl⟩
              · refine Or.inr ⟨rc, linec, offc, Or.inr (Or.inr ⟨rfl, ?_⟩)⟩
                simpa using hlt
            · simp only [Option.some.injEq] at h
              exact Or.inl ⟨_, line, h.symm⟩
        · split at h
          · rename_i ereg hend2
            rcases endBranch_classify O G fuel sb _ _ _ _ _ _ _
                (by simpa using hcap) h with
              ⟨rh, lineh, rfl⟩ | ⟨rc, linec, offc, rfl, hlt⟩
            · exact Or.inl ⟨rh, lineh, rfl⟩
            · refine Or.inr ⟨rc, linec, offc, Or.inr (Or.inr ⟨rfl, ?_⟩)⟩
              simpa using hlt
          · simp only [Option.some.injEq] at h
            exact Or.inl ⟨_, line, h.symm⟩

/-- renderCaptures terminates (finds a sufficient fuel), given that nested
render calls above depth L do.  The stack depth is restored after every
group, so the bound L is preserved across the iteration. -/
lemma renderCaptures_exists (O : Onig) (G : Grammar) (L : Nat)
    (hRL : ∀ r2 line2 b2 e2, L ≤ r2.stack.length → r2.stack.length ≤ 256 →
      ∃ fr v, renderLine O G fr r2 line2 b2 e2 r2.stack.length = some v) :
    ∀ k r line p reg i, reg.numRegs - i ≤ k → L ≤ r.stack.length + 1 →
      r.stack.length ≤ 256 →
      ∃ fuel v, renderCaptures O G fuel r line p reg i = some v := by
  intro k
  induction k with
  | zero =>
    intro r line p reg i hk hL hcap
    refine ⟨1, (r, line), ?_⟩
    simp only [renderCaptures]
    rw [if_neg (by omega)]
  | succ k ih =>
    intro r line p reg i hk hL hcap
    by_cases hi : i < reg.numRegs
    · by_cases hbeg : reg.beg i < 0
      · obtain ⟨f, v, hf⟩ := ih r line p reg (i + 1) (by omega) hL hcap
        refine ⟨f + 1, v, ?_⟩
        simp only [renderCaptures]
        rw [if_pos hi, if_pos hbeg]
        exact hf
      · by_cases hcs : p.captureScopes.getD i 0 ≠ 0
        · obtain ⟨f, v, hf⟩ := ih { r with seq := r.seq + 1 }
            (addScopeRange line (p.captureScopes.getD i 0) r.seq
              (line.lineBegin + (reg.beg i).toNat)
              (line.lineBegin + (reg.rend i).toNat)) p reg (i + 1)
            (by omega) hL hcap
          refine ⟨f + 1, v, ?_⟩
          simp only [renderCaptures]
          rw [if_pos hi, if_neg hbeg, if_pos hcs]
          exact hf
        · rcases hst : p.captureStates.getD i none with _ | sid
          · obtain ⟨f, v, hf⟩ := ih r line p reg (i + 1) (by omega) hL hcap
            refine ⟨f + 1, v, ?_⟩
            simp only [renderCaptures]
            rw [if_pos hi, if_neg hbeg, if_neg hcs]
            simp only [hst]
            exact hf
          · by_cases hfull : r.stack.length = stackCapacity
            · obtain ⟨f, v, hf⟩ := ih r line p reg (i + 1) (by omega) hL hcap
              refine ⟨f + 1, v, ?_⟩
              simp only [renderCaptures]
              rw [if_pos hi, if_neg hbeg, if_neg hcs]
              simp only [hst]
              rw [if_pos hfull]
              exact hf
            · have hlt : r.stack.length < 256 :=
                Nat.lt_of_le_of_ne hcap (by simpa [stackCapacity] using hfull)
              obtain ⟨fR, v3, hrl⟩ := hRL
                { r with stack := r.stack ++ [{ ActiveState.empty with s := some sid }] }
                line (line.lineBegin + (reg.beg i).toNat)
                (line.lineBegin + (reg.rend i).toNat)
                (by simpa using hL)
                (by simp only [List.length_append, List.length_cons, List.length_nil]
                    omega)
              obtain ⟨r3, line3⟩ := v3
              have hlen3 := (stackLen O G fR).1 _ _ _ _ _ _ _ hrl (Nat.le_refl _)
                (by simp only [List.length_append, List.length_cons, List.length_nil]
                    omega)
              simp only [List.length_append, List.length_cons, List.length_nil] at hlen3
              obtain ⟨fC, v, hC⟩ := ih (popStack r3 r.stack.length) line3 p reg (i + 1)
                (by omega)
                (by simp only [popStack_length]; omega)
                (by simp only [popStack_length]; omega)
              refine ⟨max fR fC + 1, v, ?_⟩
              simp only [renderCaptures]
              rw [if_pos hi, if_neg hbeg, if_neg hcs]
              simp only [hst]
              rw [if_neg hfull]
              have hrl' := (renderMono O G fR).1 (max fR fC) _ _ _ _ _ _
                (Nat.le_max_left _ _) hrl
              simp only [hrl']
              exact (renderMono O G fC).2.2.2.2.2.2 (max fR fC) _ _ _ _ _ _
                (Nat.le_max_right _ _) hC
    · refine ⟨1, (r, line), ?_⟩
      simp only [renderCaptures]
      rw [if_neg hi]

lemma stackWrite_bytes_dev (r : Renderer) (i : Nat) (a : ActiveState) :
    (stackWrite r i a).bytes = r.bytes := rfl

lemma regularBranch_exists (O : Onig) (G : Grammar) (L : Nat)
    (hRL : ∀ r2 line2 b2 e2, L ≤ r2.stack.length → r2.stack.length ≤ 256 →
      ∃ fr v, renderLine O G fr r2 line2 b2 e2 r2.stack.length = some v)
    (r : Renderer) (line : Line) (mo mwp : Nat) (pis : PatternInState) (reg : Region)
    (hL : L ≤ r.stack.length + 1) (hcap : r.stack.length ≤ 256) :
    ∃ fuel out, regularBranch O G fuel r line mo mwp pis reg = some out := by
  obtain ⟨fC, v2, hC⟩ := renderCaptures_exists O G L hRL reg.numRegs r line pis.p reg 0
    (by omega) hL hcap
  obtain ⟨r2, line2⟩ := v2
  refine ⟨fC + 1, ?_⟩
  simp only [regularBranch, hC]
  split
  · split
    · exact ⟨_, rfl⟩
    · exact ⟨_, rfl⟩
  · exact ⟨_, rfl⟩

lemma endBranch_exists (O : Onig) (G : Grammar) (L : Nat)
    (hRL : ∀ r2 line2 b2 e2, L ≤ r2.stack.length → r2.stack.length ≤ 256 →
      ∃ fr v, renderLine O G fr r2 line2 b2 e2 r2.stack.length = some v)
    (sb : Nat) (r : Renderer) (line : Line) (a : ActiveState) (ereg : Region)
    (mo mwp : Nat)
    (hL : L ≤ r.stack.length + 1) (hcap : r.stack.length ≤ 256) :
    ∃ fuel out, endBranch O G fuel sb r line a ereg mo mwp = some out := by
  rcases hep : (match a.s with
                | none => none
                | some sid => (G.states sid).endPattern) with _ | ep
  · refine ⟨1, StepOut.halt r line, ?_⟩
    simp only [endBranch, hep]
  · obtain ⟨fC, v2, hC⟩ := renderCaptures_exists O G L hRL ereg.numRegs r line ep ereg 0
      (by omega) hL hcap
    obtain ⟨r2, line2⟩ := v2
    refine ⟨fC + 1, ?_⟩
    simp only [endBranch, hep, hC]
    split
    · exact ⟨_, rfl⟩
    · split
      · exact ⟨_, rfl⟩
      · exact ⟨_, rfl⟩

lemma dispatchStep_exists (O : Onig) (G : Grammar) (L : Nat)
    (hRL : ∀ r2 line2 b2 e2, L ≤ r2.stack.length → r2.stack.length ≤ 256 →
      ∃ fr v, renderLine O G fr r2 line2 b2 e2 r2.stack.length = some v)
    (sb e : Nat) (r : Renderer) (line : Line) (off mo mwp : Nat)
    (hL : L ≤ r.stack.length + 1) (hcap : r.stack.length ≤ 256) :
    ∃ fuel out, dispatchStep O G fuel sb e r line off mo mwp = some out := by
  rcases hlast : r.stack.getLast? with _ | a
  · exact ⟨1, StepOut.halt r line, by simp only [dispatchStep, hlast]⟩
  · rcases hs : a.s with _ | sid
    · exact ⟨1, StepOut.halt r line, by simp only [dispatchStep, hlast, hs]⟩
    · rcases her : (match (G.states sid).endPattern with
        | none => (a.endRegex, (none : Option Region))
        | some ep => backreferencingSearch O r a a.endRegex ep
            { bytes := r.bytes, str := line.lineBegin, stop := line.endIncludingNewline,
              start := off, range := e,
              notBeginPosition := decide (off > a.innerBegin) }) with ⟨er1, er2⟩
      rcases hreg : O.regsetSearch sid
          { bytes := r.bytes, str := line.lineBegin, stop := line.endIncludingNewline,
            start := off, range := e,
            notBeginPosition := decide (off > a.innerBegin) } with _ | ⟨res, mp, region⟩
      · rcases he2 : er2 with _ | ereg
        · refine ⟨1, StepOut.halt
            (stackWrite r (r.stack.length - 1) { a with endRegex := er1 }) line, ?_⟩
          subst he2
          simp only [dispatchStep, hlast, hs, her, stackWrite_bytes_dev, hreg]
        · subst he2
          obtain ⟨fE, out, hE⟩ := endBranch_exists O G L hRL sb
            (stackWrite r (r.stack.length - 1) { a with endRegex := er1 })
            line a ereg mo mwp (by simpa using hL) (by simpa using hcap)
          refine ⟨fE + 1, out, ?_⟩
          simp only [dispatchStep, hlast, hs, her, stackWrite_bytes_dev, hreg]
          rw [← hs]
          exact hE
      · by_cases hwin : regularWinsB (G.states sid).applyEndPatternLast mp er2 = true
        · rcases hpat : (G.states sid).patterns[res]? with _ | pis
          · refine ⟨1, StepOut.halt
              (stackWrite r (r.stack.length - 1) { a with endRegex := er1 }) line, ?_⟩
            simp only [dispatchStep, hlast, hs, her, stackWrite_bytes_dev, hreg, hwin,
              if_true, hpat]
          · obtain ⟨fR, out, hR⟩ := regularBranch_exists O G L hRL
              (stackWrite r (r.stack.length - 1) { a with endRegex := er1 })
              line mo mwp pis region (by simpa using hL) (by simpa using hcap)
            refine ⟨fR + 1, out, ?_⟩
            simp only [dispatchStep, hlast, hs, her, stackWrite_bytes_dev, hreg, hwin,
              if_true, hpat]
            rw [← hs]
            exact hR
        · have hwin' : regularWinsB (G.states sid).applyEndPatternLast mp er2 = false := by
            revert hwin
            cases regularWinsB (G.states sid).applyEndPatternLast mp er2 <;> simp
          rcases he2 : er2 with _ | ereg
          · refine ⟨1, StepOut.halt
              (stackWrite r (r.stack.length - 1) { a with endRegex := er1 }) line, ?_⟩
            subst he2
            simp only [dispatchStep, hlast, hs, her, stackWrite_bytes_dev, hreg, hwin',
              Bool.false_eq_true, if_false]
          · subst he2
            obtain ⟨fE, out, hE⟩ := endBranch_exists O G L hRL sb
              (stackWrite r (r.stack.length - 1) { a with endRegex := er1 })
              line a ereg mo mwp (by simpa using hL) (by simpa using hcap)
            refine ⟨fE + 1, out, ?_⟩
            simp only [dispatchStep, hlast, hs, her, stackWrite_bytes_dev, hreg, hwin',
              Bool.false_eq_true, if_false]
            rw [← hs]
            exact hE

lemma loopGo_exists (O : Onig) (G : Grammar) (L : Nat) (hV : ValidOnig O)
    (hRL : ∀ r2 line2 b2 e2, L ≤ r2.stack.length → r2.stack.length ≤ 256 →
      ∃ fr v, renderLine O G fr r2 line2 b2 e2 r2.stack.length = some v) :
    ∀ m sb e r line off mo mwp,
      (e - mo) * 8481 + (32 - mwp) * 257 + r.stack.length ≤ m →
      sb ≤ r.stack.length → r.stack.length ≤ 256 → L ≤ sb + 1 →
      ∃ fuel v, loopGo O G fuel sb e r line off mo mwp = some v := by
  intro m
  induction m using Nat.strong_induction_on with
  | _ m IH =>
    intro sb e r line off mo mwp hm hsb hcap hLsb
    by_cases hmwp : mwp < 32
    · obtain ⟨fD, out, hD⟩ := dispatchStep_exists O G L hRL sb e r line off mo mwp
        (by omega) hcap
      rcases dispatchStep_classify O G fD sb e r line off mo mwp out hV hcap hD with
        ⟨rh, lineh, rfl⟩ | ⟨rc, linec, offc, hcase⟩
      · refine ⟨fD + 1, (rh, lineh), ?_⟩
        simp only [loopGo]
        rw [if_pos hmwp]
        simp only [hD]
      · have hlen := (stackLen O G fD).2.2.2.1 sb e r line off mo mwp out hD hsb hcap
        rcases hcase with ⟨mo2, hlt, hle, rfl⟩ | rfl | ⟨rfl, hshrink⟩
        · simp only [stepRend] at hlen
          obtain ⟨f2, v, h2⟩ := IH ((e - mo2) * 8481 + 32 * 257 + rc.stack.length)
            (by omega) sb e rc linec offc mo2 0 (by omega) hlen.1 hlen.2 hLsb
          refine ⟨max fD f2 + 1, v, ?_⟩
          simp only [loopGo]
          rw [if_pos hmwp]
          have hD2 := (renderMono O G fD).2.2.2.1 (max fD f2) _ _ _ _ _ _ _ _
            (Nat.le_max_left _ _) hD
          simp only [hD2]
          exact (renderMono O G f2).2.2.1 (max fD f2) _ _ _ _ _ _ _ _
            (Nat.le_max_right _ _) h2
        · simp only [stepRend] at hlen
          obtain ⟨f2, v, h2⟩ := IH
            ((e - mo) * 8481 + (32 - (mwp + 1)) * 257 + rc.stack.length)
            (by omega) sb e rc linec offc mo (mwp + 1) (by omega) hlen.1 hlen.2 hLsb
          refine ⟨max fD f2 + 1, v, ?_⟩
          simp only [loopGo]
          rw [if_pos hmwp]
          have hD2 := (renderMono O G fD).2.2.2.1 (max fD f2) _ _ _ _ _ _ _ _
            (Nat.le_max_left _ _) hD
          simp only [hD2]
          exact (renderMono O G f2).2.2.1 (max fD f2) _ _ _ _ _ _ _ _
            (Nat.le_max_right _ _) h2
        · simp only [stepRend] at hlen hshrink
          obtain ⟨f2, v, h2⟩ := IH
            ((e - mo) * 8481 + (32 - mwp) * 257 + rc.stack.length)
            (by omega) sb e rc linec offc mo mwp (by omega) hlen.1 hlen.2 hLsb
          refine ⟨max fD f2 + 1, v, ?_⟩
          simp only [loopGo]
          rw [if_pos hmwp]
          have hD2 := (renderMono O G fD).2.2.2.1 (max fD f2) _ _ _ _ _ _ _ _
            (Nat.le_max_left _ _) hD
          simp only [hD2]
          exact (renderMono O G f2).2.2.1 (max fD f2) _ _ _ _ _ _ _ _
            (Nat.le_max_right _ _) h2
    · refine ⟨1, (r, line), ?_⟩
      simp only [loopGo]
      rw [if_neg hmwp]

lemma phaseA_exists (O : Onig) (G : Grammar) (L : Nat)
    (hRL : ∀ r2 line2 b2 e2, L ≤ r2.stack.length → r2.stack.length ≤ 256 →
      ∃ fr v, renderLine O G fr r2 line2 b2 e2 r2.stack.length = some v) :
    ∀ k e i r line off, r.stack.length - i ≤ k → L ≤ r.stack.length + 1 →
      r.stack.length ≤ 256 →
      ∃ fuel v, phaseA O G fuel e i r line off = some v := by
  intro k
  induction k with
  | zero =>
    intro e i r line off hk hL hcap
    refine ⟨1, (r, line, off), ?_⟩
    simp only [phaseA]
    rw [dif_neg (by omega)]
  | succ k ih =>
    intro e i r line off hk hL hcap
    by_cases hi : i < r.stack.length
    · rcases hs : (r.stack.getD i ActiveState.empty).s with _ | sid
      · obtain ⟨f, v, hf⟩ := ih e (i + 1) r line off (by omega) hL hcap
        refine ⟨f + 1, v, ?_⟩
        simp only [phaseA]
        rw [dif_pos hi]
        simp only [hs]
        exact hf
      · rcases hwp : (G.states sid).whilePattern with _ | p
        · obtain ⟨f, v, hf⟩ := ih e (i + 1) r line off (by omega) hL hcap
          refine ⟨f + 1, v, ?_⟩
          simp only [phaseA]
          rw [dif_pos hi]
          simp only [hs, hwp]
          exact hf
        · rcases hc2 : (backreferencingSearch O r (r.stack.getD i ActiveState.empty)
              (r.stack.getD i ActiveState.empty).whileRegex p
              { bytes := r.bytes, str := line.lineBegin, stop := line.endIncludingNewline,
                start := off, range := e, notBeginPosition := true }).2 with _ | reg
          · refine ⟨1, (popStack (stackWrite r i
                { r.stack.getD i ActiveState.empty with
                    whileRegex := (backreferencingSearch O r
                      (r.stack.getD i ActiveState.empty)
                      (r.stack.getD i ActiveState.empty).whileRegex p
                      { bytes := r.bytes, str := line.lineBegin,
                        stop := line.endIncludingNewline,
                        start := off, range := e, notBeginPosition := true }).1 }) i,
              line, off), ?_⟩
            simp only [phaseA]
            rw [dif_pos hi]
            simp only [hs, hwp, hc2]
          · obtain ⟨fC, v3, hC⟩ := renderCaptures_exists O G L hRL reg.numRegs
              (stackWrite r i
                { r.stack.getD i ActiveState.empty with
                    whileRegex := (backreferencingSearch O r
                      (r.stack.getD i ActiveState.empty)
                      (r.stack.getD i ActiveState.empty).whileRegex p
                      { bytes := r.bytes, str := line.lineBegin,
                        stop := line.endIncludingNewline,
                        start := off, range := e, notBeginPosition := true }).1 })
              line p reg 0 (by omega) (by simpa using hL) (by simpa using hcap)
            obtain ⟨r3, line3⟩ := v3
            have hlen3 : r3.stack.length = r.stack.length := by
              have := (stackLen O G fC).2.2.2.2.2.2 _ _ _ _ _ _ _ hC
                (by simpa using hcap)
              simpa using this
            obtain ⟨fP, v, hP⟩ := ih e (i + 1)
              (stackWrite r3 i
                { r3.stack.getD i ActiveState.empty with
                    outerBegin := line3.lineBegin + (reg.beg 0).toNat,
                    innerBegin := line3.lineBegin + (reg.rend 0).toNat })
              line3 (line3.lineBegin + (reg.rend 0).toNat)
              (by simp only [stackWrite_length, hlen3]; omega)
              (by simpa [hlen3] using hL)
              (by simpa [hlen3] using hcap)
            refine ⟨max fC fP + 1, v, ?_⟩
            simp only [phaseA]
            rw [dif_pos hi]
            simp only [hs, hwp, hc2]
            rw [← hs]
            have hC2 := (renderMono O G fC).2.2.2.2.2.2 (max fC fP) _ _ _ _ _ _
              (Nat.le_max_left _ _) hC
            simp only [hC2]
            exact (renderMono O G fP).2.1 (max fC fP) _ _ _ _ _ _
              (Nat.le_max_right _ _) hP
    · refine ⟨1, (r, line, off), ?_⟩
      simp only [phaseA]
      rw [dif_neg hi]

/-- Termination of renderLine: under a sound engine, some fuel always
suffices.  Strong induction on the remaining stack headroom: capture states
push a transient frame before the nested render call, so nested calls run at
a strictly higher stack base. -/
lemma renderLine_exists (O : Onig) (G : Grammar) (hV : ValidOnig O) :
    ∀ d r line b e sb, sb ≤ r.stack.length → r.stack.length ≤ 256 →
      257 - sb ≤ d →
      ∃ fuel v, renderLine O G fuel r line b e sb = some v := by
  intro d
  induction d using Nat.strong_induction_on with
  | _ d IH =>
    intro r line b e sb hsb hcap hd
    have hRL : ∀ r2 line2 b2 e2, sb + 1 ≤ r2.stack.length → r2.stack.length ≤ 256 →
        ∃ fr v, renderLine O G fr r2 line2 b2 e2 r2.stack.length = some v := by
      intro r2 line2 b2 e2 hge hcap2
      exact IH (257 - r2.stack.length) (by omega) r2 line2 b2 e2 r2.stack.length
        (Nat.le_refl _) hcap2 (Nat.le_refl _)
    by_cases hbe : b = e
    · refine ⟨1, (r, line), ?_⟩
      simp only [renderLine]
      rw [if_pos hbe]
    · obtain ⟨fP, vP, hP⟩ := phaseA_exists O G (sb + 1) hRL r.stack.length e sb r line b
        (by omega) (by omega) hcap
      obtain ⟨r1, line1, off1⟩ := vP
      have hlen1 := (stackLen O G fP).2.1 e sb r line b r1 line1 off1 hP sb
        (Nat.le_refl _) hsb hcap
      obtain ⟨fL, vL, hL2⟩ := loopGo_exists O G (sb + 1) hV hRL
        ((e - b) * 8481 + (32 - 0) * 257 + r1.stack.length) sb e r1 line1 off1 b 0
        (Nat.le_refl _) hlen1.1 hlen1.2 (by omega)
      obtain ⟨r2, line2⟩ := vL
      refine ⟨max fP fL + 1, (r2, openScopes r2 e sb line2), ?_⟩
      simp only [renderLine]
      rw [if_neg hbe]
      have hP2 := (renderMono O G fP).2.1 (max fP fL) _ _ _ _ _ _
        (Nat.le_max_left _ _) hP
      simp only [hP2]
      have hL3 := (renderMono O G fL).2.2.1 (max fP fL) _ _ _ _ _ _ _ _
        (Nat.le_max_right _ _) hL2
      simp only [hL3]

/-- C8.  The dispatch loop's no-progress guard and termination: (1) once 32
consecutive non-advancing matches have been counted the loop halts for the
line without taking another step; (2) a regular match always CONTINUES the
loop (zero-width matches included — they never halt it by themselves),
resetting the counter when the match end passes the high-water mark maxOffset
and incrementing it otherwise; (3) for every input, grammar and sound engine
(matches land inside the searched window), rendering a line terminates: some
fuel makes renderLine return a result. -/
theorem c8_guard_and_termination (O : Onig) (G : Grammar)
    (hV : ValidOnig O) (r : Renderer) (line : Line) (b e sb : Nat)
    (hsb : sb ≤ r.stack.length) (hcap : r.stack.length ≤ 256) :
    (∀ fuel sb2 e2 r2 line2 off2 mo2 mwp2, 32 ≤ mwp2 →
      loopGo O G (fuel + 1) sb2 e2 r2 line2 off2 mo2 mwp2 = some (r2, line2)) ∧
    (∀ line2 mo mwp r2 reg,
      (mo < line2.lineBegin + (reg.rend 0).toNat →
        progressOut line2 mo mwp r2 reg =
          StepOut.cont r2 line2 (line2.lineBegin + (reg.rend 0).toNat)
            (line2.lineBegin + (reg.rend 0).toNat) 0) ∧
      (line2.lineBegin + (reg.rend 0).toNat ≤ mo →
        progressOut line2 mo mwp r2 reg =
          StepOut.cont r2 line2 (line2.lineBegin + (reg.rend 0).toNat) mo (mwp + 1))) ∧
    ∃ fuel v, renderLine O G fuel r line b e sb = some v := by
  refine ⟨?_, ?_, ?_⟩
  · intro fuel sb2 e2 r2 line2 off2 mo2 mwp2 h32
    simp only [loopGo]
    rw [if_neg (by omega)]
  · intro line2 mo mwp r2 reg
    constructor
    · intro hlt
      simp only [progressOut]
      rw [if_pos (by omega)]
    · intro hle
      simp only [progressOut]
      rw [if_neg (by omega)]
  · exact renderLine_exists O G hV (257 - sb) r line b e sb hsb hcap (Nat.le_refl _)

/-- Witness for c8_guard_and_termination: the always-failing engine is sound,
and on the C3 scenario's renderer the guard facts and termination hold. -/
theorem c8_witness :
    loopGo onigNone c3G (5 + 1) 1 5 c3R c3Line 0 0 32 = some (c3R, c3Line) ∧
    progressOut c3Line 0 0 c3R c3Reg =
      StepOut.cont c3R c3Line (c3Line.lineBegin + (c3Reg.rend 0).toNat)
        (c3Line.lineBegin + (c3Reg.rend 0).toNat) 0 ∧
    ∃ fuel v, renderLine onigNone c3G fuel c3R c3Line 0 5 1 = some v := by
  have H := c8_guard_and_termination onigNone c3G
    (by intro sid args res mp reg h; simp [onigNone] at h)
    c3R c3Line 0 5 1 (by decide) (by decide)
  exact ⟨H.1 5 1 5 c3R c3Line 0 0 32 (by omega),
    (H.2.1 c3Line 0 0 c3R c3Reg).1 (by decide), H.2.2⟩
